import Mathlib

set_option maxHeartbeats 1000000

/-!
Verification of the kuiper request-resolution library (src/lib/src/lib.rs) against its
specification.  Rust strings are modelled as `List Char`; `HashMap` values are modelled
as association lists (the map parsed by serde has unique keys, and only lookup results
are observable); the filesystem, the process environment, `Uuid::new_v4` and
`Timestamp::now` are passed in explicitly.  The two nondeterministic generators are
modelled as streams indexed by a counter that is threaded through evaluation, so each
call to `new_v4`/`now` consumes one counter value.
-/

/-- The two-character open marker `\x7b\x7b` used by `Request::interpolate_str`. -/
def openMarker : List Char := "\x7b\x7b".toList

/-- The two-character close marker `\x7d\x7d` used by `Request::interpolate_str`. -/
def closeMarker : List Char := "\x7d\x7d".toList

/-- The character `\x7b`. -/
def lbraceChar : Char := '\x7b'

/-- The character `\x7d`. -/
def rbraceChar : Char := '\x7d'

/-- Offsets of the non-overlapping, left-to-right occurrences of the pattern
`p :: ps` in the remaining input, where `i` is the offset of the head of the
remaining input in the original string and `skip` counts characters still covered
by the previous match.  This models Rust's `str::match_indices` for a non-empty
pattern (which scans left to right and resumes after each whole match). -/
def matchIndicesGo (p : Char) (ps : List Char) : List Char → Nat → Nat → List Nat
  | [], _, _ => []
  | c :: rest, i, skip =>
    match skip with
    | s + 1 => matchIndicesGo p ps rest (i + 1) s
    | 0 =>
      if (p :: ps).isPrefixOf (c :: rest) then
        i :: matchIndicesGo p ps rest (i + 1) ps.length
      else
        matchIndicesGo p ps rest (i + 1) 0

/-- Model of `s.match_indices(pat)` (offsets only).  The library only ever uses the
non-empty patterns `\x7b\x7b` and `\x7d\x7d`, so the empty pattern is mapped to no
matches. -/
def matchIndices (pat s : List Char) : List Nat :=
  match pat with
  | [] => []
  | p :: ps => matchIndicesGo p ps s 0 0

/-- Output of Rust's `str::replace` on the remaining input: every non-overlapping
occurrence of `p :: ps` is replaced by `val`; `skip` counts characters still covered
by the previous match. -/
def replaceGo (p : Char) (ps val : List Char) : List Char → Nat → List Char
  | [], _ => []
  | c :: rest, skip =>
    match skip with
    | s + 1 => replaceGo p ps val rest s
    | 0 =>
      if (p :: ps).isPrefixOf (c :: rest) then
        val ++ replaceGo p ps val rest ps.length
      else
        c :: replaceGo p ps val rest 0

/-- Model of `s.replace(pat, val)`: all non-overlapping occurrences of `pat` in `s`
are replaced by `val`.  (`interpolate_str` only calls it with a pattern that starts
with the open marker, so the empty-pattern case is unreachable.) -/
def replaceAll (s pat val : List Char) : List Char :=
  match pat with
  | [] => s
  | p :: ps => replaceGo p ps val s 0

/-- Model of `s.contains(pat)` (substring containment; the empty pattern is contained
in every string). -/
def containsSub (s pat : List Char) : Bool :=
  match pat with
  | [] => true
  | p :: ps => !(matchIndicesGo p ps s 0 0).isEmpty

/-- Model of `str::split_once(':')`: split at the first colon, or `none` when there is
no colon. -/
def splitOnceColon : List Char → Option (List Char × List Char)
  | [] => none
  | c :: rest =>
    if c = ':' then some ([], rest)
    else (splitOnceColon rest).map (fun pr => (c :: pr.1, pr.2))

/-- The `InterpolationError` enum of the library: exactly the two variants
`MissingEnvVar(String)` and `InvalidFormat`. -/
inductive InterpolationError where
  | missingEnvVar (name : List Char)
  | invalidFormat
deriving DecidableEq

/-- The `KuiperError` enum of the library.  The payloads of `IoError` and `JsonError`
(an `std::io::Error` and a `serde_json::Error`) are not observable by any claim and
are dropped. -/
inductive KuiperError where
  | ioError
  | jsonError
  | requestNotFound
  | fileFormatError
  | pathError
  | invalidExpr (expr : List Char)
  | interpolationError (e : InterpolationError)
deriving DecidableEq

/-- Whether a `KuiperError` is the `InterpolationError` variant (written in the style
of the library's own `KuiperError::is_file_format_error`). -/
def KuiperError.isInterpolationVariant : KuiperError → Bool
  | .interpolationError _ => true
  | _ => false

/-!
### JSON values (`serde_json::Value`)

`interpolate_body` serialises the body with `Value::to_string`, interpolates the text
and re-parses it with `serde_json::from_str::<Option<Value>>`.  The value type is
modelled with integer numbers (serde's `i64`/`u64` integral cases; float formatting is
outside the embedding) and object fields as the ordered entry list of the underlying
map.  The printer produces serde's compact form; serde additionally `\u`-escapes
control characters other than the three named ones below, which this model prints and
re-reads verbatim instead — the round-trip behaviour is identical.
-/

inductive JValue where
  | null
  | bool (b : Bool)
  | num (n : Int)
  | str (s : List Char)
  | arr (elems : List JValue)
  | obj (fields : List (List Char × JValue))

/-- The decimal digit character for `n < 10`. -/
def digitChar (n : Nat) : Char := Char.ofNat (48 + n)

/-- Decimal digits of a natural number, most significant first. -/
def natDigits (n : Nat) : List Char :=
  if _h : n < 10 then [digitChar n]
  else natDigits (n / 10) ++ [digitChar (n % 10)]
decreasing_by exact Nat.div_lt_self (by omega) (by omega)

/-- Decimal rendering of an integer (serde's rendering of integral numbers). -/
def printInt (n : Int) : List Char :=
  if n < 0 then '-' :: natDigits (-n).toNat else natDigits n.toNat

/-- The numeric value of a list of decimal digit characters. -/
def digitsVal (ds : List Char) : Nat :=
  ds.foldl (fun a c => a * 10 + (c.toNat - 48)) 0

/-- Whether the first character (if any) is not a decimal digit — the condition under
which a maximal-munch number parse stops exactly at a list boundary. -/
def noDigitHead : List Char → Bool
  | [] => true
  | c :: _ => !c.isDigit

/-- JSON string-body escaping as performed by serde's compact serialiser. -/
def escapeString : List Char → List Char
  | [] => []
  | c :: rest =>
    if c = '"' then '\\' :: '"' :: escapeString rest
    else if c = '\\' then '\\' :: '\\' :: escapeString rest
    else if c = '\n' then '\\' :: 'n' :: escapeString rest
    else if c = '\t' then '\\' :: 't' :: escapeString rest
    else if c = '\r' then '\\' :: 'r' :: escapeString rest
    else c :: escapeString rest

mutual
/-- Model of `Value::to_string` (compact serialisation). -/
def printJson : JValue → List Char
  | .null => "null".toList
  | .bool true => "true".toList
  | .bool false => "false".toList
  | .num n => printInt n
  | .str s => '"' :: escapeString s ++ ['"']
  | .arr es => '[' :: printArrBody es ++ [']']
  | .obj fs => lbraceChar :: printObjBody fs ++ [rbraceChar]

/-- Comma-separated serialisation of array elements. -/
def printArrBody : List JValue → List Char
  | [] => []
  | [e] => printJson e
  | e :: rest => printJson e ++ ',' :: printArrBody rest

/-- Comma-separated serialisation of object fields. -/
def printObjBody : List (List Char × JValue) → List Char
  | [] => []
  | [(k, v)] => '"' :: escapeString k ++ '"' :: ':' :: printJson v
  | (k, v) :: rest =>
    '"' :: escapeString k ++ '"' :: ':' :: printJson v ++ ',' :: printObjBody rest
end

/-- Parse a JSON string body (after the opening quote) up to and including the
closing quote.  Mirrors the serde grammar for the escapes the printer emits; serde
checks the escape table before reading on, the model checks it after — the accepted
language and results agree. -/
def parseStrBody : List Char → Except Unit (List Char × List Char)
  | [] => .error ()
  | c :: rest =>
    if c = '"' then .ok ([], rest)
    else if c = '\\' then
      match rest with
      | [] => .error ()
      | e :: rest' =>
        match parseStrBody rest' with
        | .error _ => .error ()
        | .ok (s, r) =>
          if e = '"' then .ok ('"' :: s, r)
          else if e = '\\' then .ok ('\\' :: s, r)
          else if e = '/' then .ok ('/' :: s, r)
          else if e = 'n' then .ok ('\n' :: s, r)
          else if e = 't' then .ok ('\t' :: s, r)
          else if e = 'r' then .ok ('\x0d' :: s, r)
          else .error ()
    else
      match parseStrBody rest with
      | .error _ => .error ()
      | .ok (s, r) => .ok (c :: s, r)

def parseStrBody_length_aux :
    ∀ (n : Nat) (s : List Char), s.length ≤ n →
      ∀ out r, parseStrBody s = .ok (out, r) → r.length < s.length := by
  intro n
  induction n with
  | zero =>
    intro s hs out r h
    have : s = [] := List.length_eq_zero.mp (by omega)
    subst this
    simp [parseStrBody] at h
  | succ n ih =>
    intro s hs out r h
    rw [parseStrBody.eq_def] at h
    split at h
    · exact absurd h (by simp)
    · rename_i c rest
      split at h
      · cases h
        simp
      · split at h
        · split at h
          · exact absurd h (by simp)
          · rename_i e rest'
            split at h
            · exact absurd h (by simp)
            · rename_i s' r' heq
              have hlt : r'.length < rest'.length :=
                ih rest' (by simp at hs ⊢; omega) s' r' heq
              repeat' split at h
              all_goals first
                | (cases h; simp; omega)
                | exact absurd h (by simp)
        · split at h
          · exact absurd h (by simp)
          · rename_i s' r' heq
            have hlt : r'.length < rest.length :=
              ih rest (by simp at hs ⊢; omega) s' r' heq
            cases h
            simp
            omega

def parseStrBody_length {s out r : List Char} (h : parseStrBody s = .ok (out, r)) :
    r.length < s.length :=
  parseStrBody_length_aux s.length s (le_refl _) out r h

/-- Consume a maximal run of decimal digits, accumulating their value. -/
def parseDigitsGo : Nat → List Char → Nat × List Char
  | acc, [] => (acc, [])
  | acc, c :: rest =>
    if c.isDigit then parseDigitsGo (acc * 10 + (c.toNat - 48)) rest
    else (acc, c :: rest)

def parseDigitsGo_length (acc : Nat) (s : List Char) :
    (parseDigitsGo acc s).2.length ≤ s.length := by
  induction s generalizing acc with
  | nil => simp [parseDigitsGo]
  | cons c rest ih =>
    rw [parseDigitsGo]
    split
    · exact le_trans (ih _) (by simp)
    · simp

/-- Expect the literal `lit` as a prefix of the input, returning the remainder. -/
def expectLit : List Char → List Char → Option (List Char)
  | [], s => some s
  | _ :: _, [] => none
  | c :: cs, x :: xs => if x = c then expectLit cs xs else none

def expectLit_length : ∀ (lit s r : List Char), expectLit lit s = some r →
    r.length ≤ s.length := by
  intro lit
  induction lit with
  | nil =>
    intro s r h
    rw [expectLit] at h
    cases h
    exact le_refl _
  | cons c cs ih =>
    intro s r h
    cases s with
    | nil => cases h
    | cons x xs =>
      rw [expectLit] at h
      split at h
      · exact le_trans (ih xs r h) (by simp)
      · cases h

/-- Weaken the consumption bound of a parser remainder. -/
def shrinkRem {m n : Nat} (rr : { r : List Char // r.length < m }) (h : m ≤ n) :
    { r : List Char // r.length < n } :=
  ⟨rr.val, lt_of_lt_of_le rr.property h⟩

/-- `expectLit` packaged with its consumption bound. -/
def expectLitB (lit s : List Char) : Option { r : List Char // r.length ≤ s.length } :=
  match hel : expectLit lit s with
  | some r => some ⟨r, expectLit_length lit s r hel⟩
  | none => none

/-- `parseStrBody` packaged with its consumption bound. -/
def parseStrBodyB (s : List Char) :
    Except Unit (List Char × { r : List Char // r.length < s.length }) :=
  match hs : parseStrBody s with
  | .error e => .error e
  | .ok (out, r) => .ok (out, ⟨r, parseStrBody_length hs⟩)

/-- `parseDigitsGo` packaged with its consumption bound. -/
def parseDigitsB (acc : Nat) (s : List Char) :
    Nat × { r : List Char // r.length ≤ s.length } :=
  ((parseDigitsGo acc s).1, ⟨(parseDigitsGo acc s).2, parseDigitsGo_length acc s⟩)

/-- Branch of `parseVal` for the keyword literals `null`, `true` and `false`. -/
def litRes (v : JValue) (lit rest : List Char) :
    Except Unit (JValue × { r : List Char // r.length < rest.length + 1 }) :=
  match expectLitB lit rest with
  | some rr => .ok (v, ⟨rr.val, Nat.lt_succ_of_le rr.property⟩)
  | none => .error ()

/-- Branch of `parseVal` for string values (after the opening quote). -/
def strRes (rest : List Char) :
    Except Unit (JValue × { r : List Char // r.length < rest.length + 1 }) :=
  match parseStrBodyB rest with
  | .error _ => .error ()
  | .ok (out, rr) => .ok (.str out, ⟨rr.val, Nat.lt_succ_of_lt rr.property⟩)

/-- Branch of `parseVal` for non-negative numbers (first digit already seen). -/
def numRes (c : Char) (rest : List Char) :
    Except Unit (JValue × { r : List Char // r.length < rest.length + 1 }) :=
  .ok (.num ((parseDigitsB (c.toNat - 48) rest).1 : Int),
    ⟨(parseDigitsB (c.toNat - 48) rest).2.val,
      Nat.lt_succ_of_le (parseDigitsB (c.toNat - 48) rest).2.property⟩)

/-- Branch of `parseVal` for negative numbers (after the minus sign). -/
def parseNegStart :
    (rest : List Char) →
      Except Unit (JValue × { r : List Char // r.length < rest.length + 1 })
  | [] => .error ()
  | d :: r2 =>
    if d.isDigit then
      .ok (.num (-((parseDigitsB (d.toNat - 48) r2).1 : Int)),
        ⟨(parseDigitsB (d.toNat - 48) r2).2.val, by
          have := (parseDigitsB (d.toNat - 48) r2).2.property
          simp only [List.length_cons]
          omega⟩)
    else .error ()

mutual
/-- Recursive-descent parser for a single JSON value (the grammar accepted by
`serde_json::from_str`, restricted as described at `JValue`), returning the remaining
input together with a strict-consumption bound (used for termination). -/
def parseVal (s : List Char) :
    Except Unit (JValue × { r : List Char // r.length < s.length }) :=
  match s with
  | [] => .error ()
  | c :: rest =>
    if c = 'n' then litRes .null "ull".toList rest
    else if c = 't' then litRes (.bool true) "rue".toList rest
    else if c = 'f' then litRes (.bool false) "alse".toList rest
    else if c = '"' then strRes rest
    else if c = '[' then parseArrStart rest
    else if c = lbraceChar then parseObjStart rest
    else if c = '-' then parseNegStart rest
    else if c.isDigit then numRes c rest
    else .error ()
termination_by (s.length, 0)
decreasing_by
  · apply Prod.Lex.left
    simp
  · apply Prod.Lex.left
    simp

/-- Branch of `parseVal` for arrays (after the opening bracket). -/
def parseArrStart :
    (rest : List Char) →
      Except Unit (JValue × { r : List Char // r.length < rest.length + 1 })
  | [] => .error ()
  | c2 :: r2 =>
    if c2 = ']' then .ok (.arr [], ⟨r2, by simp only [List.length_cons]; omega⟩)
    else
      match parseArrElems (c2 :: r2) with
      | .error _ => .error ()
      | .ok (es, rr) =>
        .ok (.arr es, ⟨rr.val, by
          have := rr.property; simp only [List.length_cons] at this ⊢; omega⟩)
termination_by rest => (rest.length, 4)
decreasing_by
  apply Prod.Lex.right
  omega

/-- Branch of `parseVal` for objects (after the opening brace). -/
def parseObjStart :
    (rest : List Char) →
      Except Unit (JValue × { r : List Char // r.length < rest.length + 1 })
  | [] => .error ()
  | c2 :: r2 =>
    if c2 = rbraceChar then .ok (.obj [], ⟨r2, by simp only [List.length_cons]; omega⟩)
    else
      match parseObjFields (c2 :: r2) with
      | .error _ => .error ()
      | .ok (fs, rr) =>
        .ok (.obj fs, ⟨rr.val, by
          have := rr.property; simp only [List.length_cons] at this ⊢; omega⟩)
termination_by rest => (rest.length, 4)
decreasing_by
  apply Prod.Lex.right
  omega

/-- Parse one or more comma-separated array elements followed by the closing
bracket. -/
def parseArrElems (s : List Char) :
    Except Unit (List JValue × { r : List Char // r.length < s.length }) :=
  match parseVal s with
  | .error _ => .error ()
  | .ok (v, rr) => parseArrAfterVal s v rr.val rr.property
termination_by (s.length, 2)
decreasing_by
  · apply Prod.Lex.right
    omega
  · apply Prod.Lex.right
    omega

/-- Continuation of `parseArrElems` after one element has been parsed: expect a
comma and further elements or the closing bracket. -/
def parseArrAfterVal (s : List Char) (v : JValue) :
    (r1 : List Char) → r1.length < s.length →
      Except Unit (List JValue × { r : List Char // r.length < s.length })
  | [], _ => .error ()
  | c2 :: r2, pf =>
    if c2 = ',' then
      match parseArrElems r2 with
      | .error _ => .error ()
      | .ok (es, rr3) =>
        .ok (v :: es, shrinkRem rr3 (by simp only [List.length_cons] at pf; omega))
    else if c2 = ']' then
      .ok ([v], ⟨r2, by simp only [List.length_cons] at pf; omega⟩)
    else .error ()
termination_by r1 _ => (s.length, 1)
decreasing_by
  apply Prod.Lex.left
  simp only [List.length_cons] at pf
  omega

/-- Parse one or more comma-separated object fields followed by the closing
brace. -/
def parseObjFields (s : List Char) :
    Except Unit (List (List Char × JValue) × { r : List Char // r.length < s.length }) :=
  match s with
  | [] => .error ()
  | c :: rest =>
    if c = '"' then
      match parseStrBodyB rest with
      | .error _ => .error ()
      | .ok (k, rr1) =>
        parseObjAfterKey (c :: rest) k rr1.val
          (by have := rr1.property; simp only [List.length_cons]; omega)
    else .error ()
termination_by (s.length, 3)
decreasing_by
  apply Prod.Lex.right
  omega

/-- Continuation of `parseObjFields` after a field key has been parsed: expect a
colon and the field value. -/
def parseObjAfterKey (s : List Char) (k : List Char) :
    (r1 : List Char) → r1.length < s.length →
      Except Unit (List (List Char × JValue) × { r : List Char // r.length < s.length })
  | [], _ => .error ()
  | c3 :: r2, pf =>
    if c3 = ':' then
      match parseVal r2 with
      | .error _ => .error ()
      | .ok (v, rr) =>
        parseObjAfterVal s k v rr.val
          (by have := rr.property; simp only [List.length_cons] at pf; omega)
    else .error ()
termination_by r1 _ => (s.length, 2)
decreasing_by
  · apply Prod.Lex.left
    simp only [List.length_cons] at pf
    omega
  · apply Prod.Lex.right
    omega

/-- Continuation of `parseObjFields` after one field has been parsed: expect a
comma and further fields or the closing brace. -/
def parseObjAfterVal (s : List Char) (k : List Char) (v : JValue) :
    (r3 : List Char) → r3.length < s.length →
      Except Unit (List (List Char × JValue) × { r : List Char // r.length < s.length })
  | [], _ => .error ()
  | c4 :: r4, pf =>
    if c4 = ',' then
      match parseObjFields r4 with
      | .error _ => .error ()
      | .ok (fs, rr5) =>
        .ok ((k, v) :: fs, shrinkRem rr5 (by simp only [List.length_cons] at pf; omega))
    else if c4 = rbraceChar then
      .ok ([(k, v)], ⟨r4, by simp only [List.length_cons] at pf; omega⟩)
    else .error ()
termination_by r3 _ => (s.length, 1)
decreasing_by
  apply Prod.Lex.left
  simp only [List.length_cons] at pf
  omega
end

/-- Plain-pair view of `parseVal` (drops the consumption-bound proof). -/
def parseValW (s : List Char) : Except Unit (JValue × List Char) :=
  match parseVal s with
  | .error e => .error e
  | .ok (v, rr) => .ok (v, rr.val)

/-- Plain-pair view of `parseArrElems`. -/
def parseArrElemsW (s : List Char) : Except Unit (List JValue × List Char) :=
  match parseArrElems s with
  | .error e => .error e
  | .ok (es, rr) => .ok (es, rr.val)

/-- Plain-pair view of `parseObjFields`. -/
def parseObjFieldsW (s : List Char) : Except Unit (List (List Char × JValue) × List Char) :=
  match parseObjFields s with
  | .error e => .error e
  | .ok (fs, rr) => .ok (fs, rr.val)

/-- Model of `serde_json::from_str::<Value>`: parse one value and require the input
to be fully consumed. -/
def parseTop (s : List Char) : Except Unit JValue :=
  match parseValW s with
  | .ok (v, []) => .ok v
  | _ => .error ()

/-- Model of `serde_json::from_str::<Option<Value>>`: JSON `null` deserialises to
`None`, everything else to `Some`. -/
def parseOptValue (s : List Char) : Except Unit (Option JValue) :=
  match parseTop s with
  | .error e => .error e
  | .ok .null => .ok none
  | .ok v => .ok (some v)

/-- Structural induction principle for `JValue` with element-wise hypotheses for the
nested lists. -/
def JValue.recurse (P : JValue → Prop)
    (hnull : P .null) (hbool : ∀ b, P (.bool b)) (hnum : ∀ n, P (.num n))
    (hstr : ∀ s, P (.str s))
    (harr : ∀ es, (∀ e ∈ es, P e) → P (.arr es))
    (hobj : ∀ fs, (∀ kv ∈ fs, P kv.2) → P (.obj fs)) : ∀ v, P v
  | .null => hnull
  | .bool b => hbool b
  | .num n => hnum n
  | .str s => hstr s
  | .arr es => harr es (fun e he => JValue.recurse P hnull hbool hnum hstr harr hobj e)
  | .obj fs => hobj fs (fun kv hkv => JValue.recurse P hnull hbool hnum hstr harr hobj kv.2)
termination_by v => sizeOf v
decreasing_by
  · have := List.sizeOf_lt_of_mem he
    simp
    omega
  · have := List.sizeOf_lt_of_mem hkv
    cases kv
    simp at this ⊢
    omega

/-!
### The request data model and the interpolation engine
-/

/-- The `Headers` alias of the library: a map from header name to optional value,
modelled as an association list (the serde-parsed `HashMap` has unique keys). -/
abbrev Headers := List (List Char × Option (List Char))

/-- Lookup in an association list (`HashMap::get` / `Entry` occupancy). -/
def alookup {α : Type} : List (List Char × α) → List Char → Option α
  | [], _ => none
  | (k, v) :: rest, key => if k = key then some v else alookup rest key

/-- `HashMap::insert`: overwrite the binding if the key is present, append it
otherwise. -/
def hinsert : Headers → List Char → Option (List Char) → Headers
  | [], k, v => [(k, v)]
  | (k', v') :: rest, k, v =>
    if k' = k then (k, v) :: rest else (k', v') :: hinsert rest k v

/-- The `Request` struct of the library (`name`, `uri`, `headers`, `params`,
`method`, `body`). -/
structure Request where
  name : List Char
  uri : List Char
  headers : Headers
  params : List (List Char × List Char)
  method : List Char
  body : Option JValue

/-- Model of `Request::interpolation_expr`.  `gen` and `now` are the value streams
of `Uuid::new_v4` and `Timestamp::now`; `c` is the generation counter. -/
def interpolationExpr (gen now : Nat → List Char) (expr : List Char) (c : Nat) :
    Except KuiperError (List Char × Nat) :=
  if expr = "uuid".toList then .ok (gen c, c + 1)
  else if expr = "now".toList then .ok (now c, c + 1)
  else .error (.invalidExpr expr)

/-- The loop body of `Request::interpolate_str`: process the pre-computed list of
open-marker offsets left to right.  For each offset the nearest close marker is
located in the *original* input, the `kind:name` pair is split at the first colon
and dispatched, and then *every* occurrence of the matched span still present in
the accumulated result is replaced (Rust's `str::replace`). -/
def interpolateStrGo (env : List Char → Option (List Char)) (gen now : Nat → List Char)
    (input : List Char) :
    List Nat → List Char → Nat → Except KuiperError (List Char × Nat)
  | [], result, c => .ok (result, c)
  | startIdx :: restIdxs, result, c =>
    match matchIndices closeMarker (input.drop startIdx) with
    | [] => .error (.interpolationError .invalidFormat)
    | endIdx :: _ =>
      let interpolatedName := ((input.drop startIdx).drop 2).take (endIdx - 2)
      match splitOnceColon interpolatedName with
      | none => .error (.interpolationError .invalidFormat)
      | some (ty, name) =>
        let valRes : Except KuiperError (List Char × Nat) :=
          if ty = "env".toList then
            match env name with
            | some v => .ok (v, c)
            | none => .error (.interpolationError (.missingEnvVar name))
          else if ty = "expr".toList then interpolationExpr gen now name c
          else .error (.interpolationError .invalidFormat)
        match valRes with
        | .error e => .error e
        | .ok (value, c') =>
          let pattern := (input.drop startIdx).take (endIdx + 2)
          interpolateStrGo env gen now input restIdxs (replaceAll result pattern value) c'

/-- Model of `Request::interpolate_str`. -/
def interpolateStr (env : List Char → Option (List Char)) (gen now : Nat → List Char)
    (input : List Char) (c : Nat) : Except KuiperError (List Char × Nat) :=
  interpolateStrGo env gen now input (matchIndices openMarker input) input c

/-- Model of `Request::interpolate_params`: interpolate each param value, in map
iteration order. -/
def interpolateParamsGo (env : List Char → Option (List Char)) (gen now : Nat → List Char) :
    List (List Char × List Char) → Nat →
      Except KuiperError (List (List Char × List Char) × Nat)
  | [], c => .ok ([], c)
  | (k, v) :: rest, c =>
    match interpolateStr env gen now v c with
    | .error e => .error e
    | .ok (v', c') =>
      match interpolateParamsGo env gen now rest c' with
      | .error e => .error e
      | .ok (rest', c'') => .ok ((k, v') :: rest', c'')

/-- Model of `Request::interpolate_headers`: interpolate each header value that is
present, skipping `None` values, in map iteration order. -/
def interpolateHeadersGo (env : List Char → Option (List Char)) (gen now : Nat → List Char) :
    Headers → Nat → Except KuiperError (Headers × Nat)
  | [], c => .ok ([], c)
  | (k, none) :: rest, c =>
    match interpolateHeadersGo env gen now rest c with
    | .error e => .error e
    | .ok (rest', c') => .ok ((k, none) :: rest', c')
  | (k, some v) :: rest, c =>
    match interpolateStr env gen now v c with
    | .error e => .error e
    | .ok (v', c') =>
      match interpolateHeadersGo env gen now rest c' with
      | .error e => .error e
      | .ok (rest', c'') => .ok ((k, some v') :: rest', c'')

/-- Model of `Request::interpolate_body`: serialise the body (if present) with
`Value::to_string`, interpolate the text, and re-parse it with
`serde_json::from_str::<Option<Value>>`; a re-parse failure is a `JsonError`. -/
def interpolateBody (env : List Char → Option (List Char)) (gen now : Nat → List Char)
    (body : Option JValue) (c : Nat) : Except KuiperError (Option JValue × Nat) :=
  match body with
  | none => .ok (none, c)
  | some b =>
    match interpolateStr env gen now (printJson b) c with
    | .error e => .error e
    | .ok (s', c') =>
      match parseOptValue s' with
      | .error _ => .error .jsonError
      | .ok v => .ok (v, c')

/-- Model of `Request::interpolate`: uri, then params, then headers, then body
(the order of the calls in the source). -/
def Request.interpolate (env : List Char → Option (List Char)) (gen now : Nat → List Char)
    (r : Request) (c : Nat) : Except KuiperError (Request × Nat) :=
  match interpolateStr env gen now r.uri c with
  | .error e => .error e
  | .ok (uri', c1) =>
    match interpolateParamsGo env gen now r.params c1 with
    | .error e => .error e
    | .ok (params', c2) =>
      match interpolateHeadersGo env gen now r.headers c2 with
      | .error e => .error e
      | .ok (headers', c3) =>
        match interpolateBody env gen now r.body c3 with
        | .error e => .error e
        | .ok (body', c4) =>
          .ok ({ r with
                   uri := uri'
                   params := params'
                   headers := headers'
                   body := body' },
               c4)

/-!
### Header inheritance and `Request::find`
-/

/-- What the filesystem holds at a directory's `headers.json`: the file may be
absent, unreadable (an I/O error other than not-found), present but malformed, or a
parsed header map. -/
inductive HeaderFile where
  | notFound
  | ioError
  | malformed
  | headerMap (entries : Headers)

/-- Model of the free function `overwrite_headers`: a missing file contributes
nothing and is not an error; any other open failure is an `IoError`; a parse
failure is a `JsonError`; a parsed map is inserted entry by entry, overwriting
earlier bindings. -/
def overwriteHeaders (file : HeaderFile) (headers : Headers) :
    Except KuiperError Headers :=
  match file with
  | .notFound => .ok headers
  | .ioError => .error .ioError
  | .malformed => .error .jsonError
  | .headerMap entries =>
    .ok (entries.foldl (fun hs kv => hinsert hs kv.1 kv.2) headers)

/-- Model of `Request::add_header_if_not_exists`: insert only into a vacant entry. -/
def Request.addHeaderIfNotExists (r : Request) (k : List Char) (v : Option (List Char)) :
    Request :=
  match alookup r.headers k with
  | some _ => r
  | none => { r with headers := r.headers ++ [(k, v)] }

/-- Model of `Path::ancestors` over an absolute path given as its list of
components (`[]` is the filesystem root): the path itself, then each successive
parent, ending with the root — i.e. the reversed list of initial segments. -/
def ancestors (p : List String) : List (List String) := p.inits.reverse

/-- The directories visited by the walk in `Request::find`:
`ancestors.skip(1).rev().skip(1)` — drop the file itself, reverse, drop the root. -/
def walkDirs (p : List String) : List (List String) :=
  (((ancestors p).drop 1).reverse).drop 1

/-- The header-accumulation loop of `Request::find`: fold `overwrite_headers` over
the visited directories (outermost first), reading each directory's `headers.json`
from the filesystem `fs`. -/
def walkFold (fs : List String → HeaderFile) (p : List String) :
    Except KuiperError Headers :=
  (walkDirs p).foldlM (fun hs d => overwriteHeaders (fs d) hs) []

/-- The header-merge loop of `Request::find`: add every accumulated directory
header to the request, names already present excepted. -/
def applyDirHeaders (hs : Headers) (r : Request) : Request :=
  hs.foldl (fun req kv => req.addHeaderIfNotExists kv.1 kv.2) r

/-- Model of `Request::find` on a canonicalized (absolute) path `p`:
parse the request file (`reqFile` is the `from_file` result), fold the ancestor
walk, merge the accumulated headers into the request, then interpolate. -/
def findModel (fs : List String → HeaderFile) (reqFile : Except KuiperError Request)
    (p : List String) (env : List Char → Option (List Char)) (gen now : Nat → List Char)
    (c : Nat) : Except KuiperError (Request × Nat) :=
  match reqFile with
  | .error e => .error e
  | .ok request =>
    match walkFold fs p with
    | .error e => .error e
    | .ok headers => (applyDirHeaders headers request).interpolate env gen now c

/-- The state of `Request::find` just before interpolation: the request with file
headers and inherited directory headers merged. -/
def mergeStage (fs : List String → HeaderFile) (reqFile : Except KuiperError Request)
    (p : List String) : Except KuiperError Request :=
  match reqFile with
  | .error e => .error e
  | .ok request =>
    match walkFold fs p with
    | .error e => .error e
    | .ok headers => .ok (applyDirHeaders headers request)

/-- Whether reading this header file aborts the walk (any failure other than
not-found). -/
def HeaderFile.isErr : HeaderFile → Bool
  | .ioError => true
  | .malformed => true
  | _ => false

/-- The headers a non-failing header file contributes (none when absent). -/
def HeaderFile.contribution : HeaderFile → Headers
  | .headerMap entries => entries
  | _ => []

/-- Whether a header file effectively declares `key` (lookup in the reversed entry
list: a file's own later duplicate would win under `HashMap` insertion). -/
def declaresKey (f : HeaderFile) (key : List Char) : Bool :=
  (alookup f.contribution.reverse key).isSome

/-- The pure accumulation of the ancestor walk when no header file fails: fold each
visited directory's contribution into the accumulator with overwriting inserts. -/
def accFold (fs : List String → HeaderFile) (dirs : List (List String)) (hs : Headers) :
    Headers :=
  dirs.foldl
    (fun acc d => ((fs d).contribution).foldl (fun a kv => hinsert a kv.1 kv.2) acc) hs

/-- Concrete scenario of C2: the filesystem. -/
def c2fs : List String → HeaderFile := fun d =>
  if d = ["root"] then
    .headerMap [("A".toList, some "1".toList), ("B".toList, some "2".toList)]
  else if d = ["root", "subdir"] then
    .headerMap [("B".toList, some "3".toList), ("C".toList, some "4".toList)]
  else .notFound

/-- Concrete scenario of C2: the request file, declaring only `D = 5`. -/
def c2req : Request :=
  ⟨"n".toList, "u".toList, [("D".toList, some "5".toList)], [], "GET".toList, none⟩

/-- Concrete scenario of C2: the resolved request. -/
def c2resolved : Request :=
  ⟨"n".toList, "u".toList,
    [("D".toList, some "5".toList), ("A".toList, some "1".toList),
     ("B".toList, some "3".toList), ("C".toList, some "4".toList)],
    [], "GET".toList, none⟩

/-!
### `Request::search`
-/

/-- A filesystem entry as visited by `Request::search`: a plain file or a
directory with its entries (`read_dir` order). -/
inductive FsEntry where
  | file (fname : List Char)
  | dir (dname : List Char) (entries : List FsEntry)

mutual
/-- Size of one entry (for the termination measure of the breadth-first walk). -/
def entrySize : FsEntry → Nat
  | .file _ => 1
  | .dir _ es => 1 + entsSize es

/-- Total size of an entry list. -/
def entsSize : List FsEntry → Nat
  | [] => 0
  | e :: es => entrySize e + entsSize es
end

/-- Model of `PathBuf::join` for a child name. -/
def pathJoin (base childName : List Char) : List Char := base ++ '/' :: childName

/-- The characters after the last dot of a name, if any dot exists. -/
def afterLastDot : List Char → Option (List Char)
  | [] => none
  | c :: rest =>
    match afterLastDot rest with
    | some e => some e
    | none => if c = '.' then some rest else none

/-- Model of `Path::extension` on a file name: the portion after the last dot;
`none` when there is no dot or when the only dot is the leading one. -/
def extOf (fname : List Char) : Option (List Char) :=
  match fname with
  | [] => none
  | c :: rest => if c = '.' then afterLastDot rest else afterLastDot (c :: rest)

/-- The characters after the last slash of a path, if any slash exists. -/
def afterLastSlash : List Char → Option (List Char)
  | [] => none
  | c :: rest =>
    match afterLastSlash rest with
    | some e => some e
    | none => if c = '/' then some rest else none

/-- The final component of a path (the whole path when it has no slash). -/
def lastComponent (p : List Char) : List Char := (afterLastSlash p).getD p

/-- The subdirectories of a directory's entry list, with their joined paths
(`dirs.push_back(entry)` for each directory entry). -/
def subdirsOf (base : List Char) : List FsEntry → List (List Char × List FsEntry)
  | [] => []
  | .dir n es :: rest => (pathJoin base n, es) :: subdirsOf base rest
  | .file _ :: rest => subdirsOf base rest

/-- The candidate paths contributed by one directory's entry list: files whose
extension (empty when absent) is exactly `kuiper` and whose full path contains the
search term. -/
def fileMatchesIn (term base : List Char) : List FsEntry → List (List Char)
  | [] => []
  | .dir _ _ :: rest => fileMatchesIn term base rest
  | .file n :: rest =>
    if ((extOf n).getD [] = "kuiper".toList) && containsSub (pathJoin base n) term then
      pathJoin base n :: fileMatchesIn term base rest
    else fileMatchesIn term base rest

mutual
/-- No file name inside the entry contains a path separator (true of every real
directory tree: `read_dir` names are single components). -/
def entryGood : FsEntry → Bool
  | .file n => !n.contains '/'
  | .dir _ es => entsGood es

/-- `entryGood` for every entry of a list. -/
def entsGood : List FsEntry → Bool
  | [] => true
  | e :: es => entryGood e && entsGood es
end

/-- `entsGood` for every tree on the queue. -/
def queueGood (q : List (List Char × List FsEntry)) : Bool :=
  q.all (fun pe => entsGood pe.2)

/-- Termination measure: total entry size of the queue. -/
def queueSize (q : List (List Char × List FsEntry)) : Nat :=
  (q.map (fun pe => entsSize pe.2)).sum

def subdirsOf_size (base : List Char) (ents : List FsEntry) :
    queueSize (subdirsOf base ents) + ents.length ≤ entsSize ents := by
  induction ents with
  | nil => simp [subdirsOf, queueSize]
  | cons e rest ih =>
    cases e with
    | file n => simp [subdirsOf, entsSize, entrySize] at ih ⊢; omega
    | dir n es =>
      simp [subdirsOf, entsSize, entrySize, queueSize] at ih ⊢
      omega

def queueSize_append (a b : List (List Char × List FsEntry)) :
    queueSize (a ++ b) = queueSize a + queueSize b := by
  simp [queueSize]

def subdirsOf_length (base : List Char) (ents : List FsEntry) :
    (subdirsOf base ents).length ≤ ents.length := by
  induction ents with
  | nil => simp [subdirsOf]
  | cons e rest ih =>
    cases e with
    | file n => simp [subdirsOf]; omega
    | dir n es => simp [subdirsOf]; omega

/-- The breadth-first walk of `Request::search`: pop a directory from the front of
the queue, collect its matching files, push its subdirectories at the back. -/
def searchPaths (term : List Char) (q : List (List Char × List FsEntry)) :
    List (List Char) :=
  match q with
  | [] => []
  | (base, ents) :: rest =>
    fileMatchesIn term base ents ++ searchPaths term (rest ++ subdirsOf base ents)
termination_by 2 * queueSize q + q.length
decreasing_by
  have h1 := subdirsOf_size base ents
  have h2 := queueSize_append rest (subdirsOf base ents)
  have h3 := subdirsOf_length base ents
  simp [queueSize, List.length_append] at *
  omega

/-- Model of `Request::search` from a root directory: collect the matching paths
breadth-first, then resolve each with `Request::find` (abstracted as `resolve`) and
collect the results, failing on the first resolution error. -/
def searchModel (resolve : List Char → Except KuiperError Request)
    (root : List Char) (rootEntries : List FsEntry) (term : List Char) :
    Except KuiperError (List Request) :=
  (searchPaths term [(root, rootEntries)]).mapM resolve


/-!
### Association-list and header-merge lemmas
-/

theorem alookup_append {α : Type} (l1 l2 : List (List Char × α)) (key : List Char) :
    alookup (l1 ++ l2) key =
      match alookup l1 key with
      | some v => some v
      | none => alookup l2 key := by
  induction l1 with
  | nil => simp [alookup]
  | cons kv rest ih =>
    obtain ⟨k, v⟩ := kv
    by_cases hk : k = key
    · simp [alookup, hk]
    · simp [alookup, hk, ih]

theorem alookup_append_left {α : Type} {l1 : List (List Char × α)} (l2 : List (List Char × α))
    {key : List Char} {v : α} (h : alookup l1 key = some v) :
    alookup (l1 ++ l2) key = some v := by
  rw [alookup_append, h]

theorem alookup_hinsert (hs : Headers) (k key : List Char) (v : Option (List Char)) :
    alookup (hinsert hs k v) key = if k = key then some v else alookup hs key := by
  induction hs with
  | nil => simp [hinsert, alookup]
  | cons kv rest ih =>
    obtain ⟨k', v'⟩ := kv
    by_cases h1 : k' = k
    · subst h1
      by_cases h2 : k' = key <;> simp [hinsert, alookup, h2]
    · by_cases h2 : k' = key
      · subst h2
        have hkk : ¬k = k' := fun he => h1 he.symm
        simp [hinsert, alookup, h1, hkk]
      · simp [hinsert, alookup, h1, h2, ih]

/-- Lookup after inserting a whole entry list (one directory's header file):
the entry list overrides, its own later entries taking precedence (lookup in the
reversed list). -/
theorem alookup_foldl_hinsert (entries hs : Headers) (key : List Char) :
    alookup (entries.foldl (fun acc kv => hinsert acc kv.1 kv.2) hs) key =
      match alookup entries.reverse key with
      | some v => some v
      | none => alookup hs key := by
  induction entries generalizing hs with
  | nil => simp [alookup]
  | cons kv rest ih =>
    simp only [List.foldl_cons, List.reverse_cons]
    rw [ih, alookup_append]
    obtain ⟨k, v⟩ := kv
    cases hr : alookup rest.reverse key with
    | some w => simp
    | none =>
      by_cases hk : k = key <;> simp [alookup, alookup_hinsert, hk]

theorem alookup_addHeader_preserved (r : Request) (k h : List Char)
    (v w : Option (List Char)) (hl : alookup r.headers h = some w) :
    alookup (r.addHeaderIfNotExists k v).headers h = some w := by
  unfold Request.addHeaderIfNotExists
  split
  · exact hl
  · exact alookup_append_left _ hl

theorem applyDirHeaders_cons (kv : List Char × Option (List Char)) (rest : Headers)
    (r : Request) :
    applyDirHeaders (kv :: rest) r =
      applyDirHeaders rest (r.addHeaderIfNotExists kv.1 kv.2) := by
  simp [applyDirHeaders]

theorem alookup_applyDirHeaders_preserved (hs : Headers) (r : Request) (h : List Char)
    (w : Option (List Char)) (hl : alookup r.headers h = some w) :
    alookup (applyDirHeaders hs r).headers h = some w := by
  induction hs generalizing r with
  | nil => simpa [applyDirHeaders] using hl
  | cons kv rest ih =>
    rw [applyDirHeaders_cons]
    exact ih _ (alookup_addHeader_preserved r kv.1 h kv.2 w hl)

theorem alookup_applyDirHeaders_absent (hs : Headers) (r : Request) (key : List Char)
    (hab : alookup r.headers key = none) :
    alookup (applyDirHeaders hs r).headers key = alookup hs key := by
  induction hs generalizing r with
  | nil => simpa [applyDirHeaders, alookup] using hab
  | cons kv rest ih =>
    rw [applyDirHeaders_cons]
    obtain ⟨k, v⟩ := kv
    by_cases hk : k = key
    · subst hk
      have hadd : alookup (r.addHeaderIfNotExists k v).headers k = some v := by
        unfold Request.addHeaderIfNotExists
        rw [hab]
        rw [alookup_append]
        simp [hab, alookup]
      rw [alookup_applyDirHeaders_preserved rest _ k v hadd]
      simp [alookup]
    · have habs : alookup (r.addHeaderIfNotExists k v).headers key = none := by
        unfold Request.addHeaderIfNotExists
        split
        · exact hab
        · rw [alookup_append, hab]
          simp [alookup, hk]
      rw [ih _ habs]
      simp [alookup, hk]

theorem findModel_eq_mergeStage (fs : List String → HeaderFile)
    (reqFile : Except KuiperError Request) (p : List String)
    (env : List Char → Option (List Char)) (gen now : Nat → List Char) (c : Nat) :
    findModel fs reqFile p env gen now c =
      match mergeStage fs reqFile p with
      | .error e => .error e
      | .ok m => m.interpolate env gen now c := by
  unfold findModel mergeStage
  cases reqFile with
  | error e => simp
  | ok r => cases walkFold fs p <;> simp

/-- C1: for every header name declared in the request file's own headers, the merged
request that `Request::find` goes on to interpolate binds that name to the file's own
declared value — directory-inherited headers are only added for absent names
(`add_header_if_not_exists`) and never overwrite it; `find` is the merge stage
followed by interpolation. -/
theorem c1_file_headers_win (fs : List String → HeaderFile)
    (reqFile : Except KuiperError Request) (p : List String)
    (env : List Char → Option (List Char)) (gen now : Nat → List Char) (c : Nat)
    (r : Request) (h : List Char) (v : Option (List Char))
    (hrf : reqFile = .ok r) (hdecl : alookup r.headers h = some v) :
    (∀ m, mergeStage fs reqFile p = .ok m → alookup m.headers h = some v) ∧
      findModel fs reqFile p env gen now c =
        match mergeStage fs reqFile p with
        | .error e => .error e
        | .ok m => m.interpolate env gen now c := by
  constructor
  · intro m hm
    subst hrf
    unfold mergeStage at hm
    cases hw : walkFold fs p with
    | error e => rw [hw] at hm; cases hm
    | ok hs =>
      rw [hw] at hm
      cases hm
      exact alookup_applyDirHeaders_preserved hs r h v hdecl
  · exact findModel_eq_mergeStage fs reqFile p env gen now c

/-- Witness for C1 at a concrete scenario: the file declares `H = "file"`, the only
ancestor directory declares `H = "dir"`; the merged request keeps `H = "file"`. -/
theorem c1_witness :
    (∀ m,
        mergeStage
          (fun d => if d = ["a"] then
            .headerMap [("H".toList, some "dir".toList)] else .notFound)
          (.ok ⟨"n".toList, "u".toList, [("H".toList, some "file".toList)], [],
            "GET".toList, none⟩)
          ["a", "req"] = .ok m →
        alookup m.headers "H".toList = some (some "file".toList)) ∧
      findModel
          (fun d => if d = ["a"] then
            .headerMap [("H".toList, some "dir".toList)] else .notFound)
          (.ok ⟨"n".toList, "u".toList, [("H".toList, some "file".toList)], [],
            "GET".toList, none⟩)
          ["a", "req"] (fun _ => none) (fun _ => []) (fun _ => []) 0 =
        match
          mergeStage
            (fun d => if d = ["a"] then
              .headerMap [("H".toList, some "dir".toList)] else .notFound)
            (.ok ⟨"n".toList, "u".toList, [("H".toList, some "file".toList)], [],
              "GET".toList, none⟩)
            ["a", "req"] with
        | .error e => .error e
        | .ok m => m.interpolate (fun _ => none) (fun _ => []) (fun _ => []) 0 :=
  c1_file_headers_win _ _ _ _ _ _ _ _ _ _ rfl rfl

theorem except_bind_error {ε α β : Type} (e : ε) (k : α → Except ε β) :
    (Except.error e >>= k) = .error e := rfl

theorem except_bind_ok {ε α β : Type} (a : α) (k : α → Except ε β) :
    (Except.ok a >>= k) = k a := rfl

theorem foldlM_overwrite_error (dirs : List (List String)) (fs : List String → HeaderFile)
    (d : List String) (hd : d ∈ dirs) (herr : (fs d).isErr = true) :
    ∀ hs, ∃ e, dirs.foldlM (fun acc d' => overwriteHeaders (fs d') acc) hs = .error e := by
  induction dirs with
  | nil => cases hd
  | cons a rest ih =>
    intro hs
    rcases List.mem_cons.mp hd with rfl | hmem
    · cases hfa : fs d with
      | ioError =>
        refine ⟨.ioError, ?_⟩
        simp [List.foldlM_cons, overwriteHeaders, hfa, except_bind_error]
      | malformed =>
        refine ⟨.jsonError, ?_⟩
        simp [List.foldlM_cons, overwriteHeaders, hfa, except_bind_error]
      | notFound => rw [hfa] at herr; simp [HeaderFile.isErr] at herr
      | headerMap l => rw [hfa] at herr; simp [HeaderFile.isErr] at herr
    · cases hov : overwriteHeaders (fs a) hs with
      | error e =>
        refine ⟨e, ?_⟩
        simp [List.foldlM_cons, hov, except_bind_error]
      | ok hs' =>
        obtain ⟨e, he⟩ := ih hmem hs'
        refine ⟨e, ?_⟩
        simp [List.foldlM_cons, hov, except_bind_ok, he]

/-- C8: the absence of a directory's header file is not an error and contributes no
headers; an unreadable or malformed header file makes `overwrite_headers` fail with
`IoError` / `JsonError` respectively, and any such directory on the ancestor walk
aborts the whole `Request::find` resolution with an error. -/
theorem c8_header_file_failures (hs : Headers) (fs : List String → HeaderFile)
    (reqFile : Except KuiperError Request) (p : List String) (d : List String)
    (env : List Char → Option (List Char)) (gen now : Nat → List Char) (c : Nat)
    (r : Request) (hrf : reqFile = .ok r) (hd : d ∈ walkDirs p) :
    overwriteHeaders .notFound hs = .ok hs ∧
      overwriteHeaders .ioError hs = .error .ioError ∧
      overwriteHeaders .malformed hs = .error .jsonError ∧
      ((fs d = .ioError ∨ fs d = .malformed) →
        ∃ e, findModel fs reqFile p env gen now c = .error e) := by
  refine ⟨rfl, rfl, rfl, ?_⟩
  intro herr
  have hb : (fs d).isErr = true := by
    rcases herr with h | h <;> rw [h] <;> rfl
  obtain ⟨e, he⟩ := foldlM_overwrite_error (walkDirs p) fs d hd hb []
  subst hrf
  refine ⟨e, ?_⟩
  unfold findModel walkFold
  rw [he]

/-- Witness for C8: a two-component path whose single visited ancestor has an
unreadable header file; resolution fails. -/
theorem c8_witness :
    overwriteHeaders .notFound [] = .ok [] ∧
      overwriteHeaders .ioError [] = .error .ioError ∧
      overwriteHeaders .malformed [] = .error .jsonError ∧
      (((fun _ => HeaderFile.ioError) ["a"] = .ioError ∨
          (fun _ => HeaderFile.ioError) ["a"] = .malformed) →
        ∃ e,
          findModel (fun _ => .ioError)
              (.ok ⟨"n".toList, "u".toList, [], [], "GET".toList, none⟩)
              ["a", "req"] (fun _ => none) (fun _ => []) (fun _ => []) 0 = .error e) :=
  c8_header_file_failures [] (fun _ => .ioError)
    (.ok ⟨"n".toList, "u".toList, [], [], "GET".toList, none⟩) ["a", "req"] ["a"]
    (fun _ => none) (fun _ => []) (fun _ => []) 0
    ⟨"n".toList, "u".toList, [], [], "GET".toList, none⟩ rfl (by decide)

theorem foldlM_overwrite_ok (dirs : List (List String)) (fs : List String → HeaderFile)
    (hs : Headers) (hok : ∀ d ∈ dirs, (fs d).isErr = false) :
    dirs.foldlM (fun acc d => overwriteHeaders (fs d) acc) hs = .ok (accFold fs dirs hs) := by
  induction dirs generalizing hs with
  | nil => simp only [List.foldlM_nil, accFold, List.foldl_nil]; rfl
  | cons a rest ih =>
    have hova : overwriteHeaders (fs a) hs =
        .ok (((fs a).contribution).foldl (fun acc kv => hinsert acc kv.1 kv.2) hs) := by
      cases hfa : fs a with
      | ioError => have := hok a (by simp); rw [hfa] at this; simp [HeaderFile.isErr] at this
      | malformed => have := hok a (by simp); rw [hfa] at this; simp [HeaderFile.isErr] at this
      | notFound => simp [overwriteHeaders, HeaderFile.contribution]
      | headerMap l => simp [overwriteHeaders, HeaderFile.contribution]
    simp only [List.foldlM_cons, hova, except_bind_ok]
    rw [ih _ (fun d hd => hok d (by simp [hd]))]
    simp [accFold]

theorem alookup_accFold_undeclared (fs : List String → HeaderFile)
    (dirs : List (List String)) (hs : Headers) (key : List Char)
    (h : ∀ d ∈ dirs, declaresKey (fs d) key = false) :
    alookup (accFold fs dirs hs) key = alookup hs key := by
  induction dirs generalizing hs with
  | nil => simp [accFold]
  | cons a rest ih =>
    have ha : alookup ((fs a).contribution).reverse key = none := by
      have := h a (by simp)
      unfold declaresKey at this
      cases hx : alookup ((fs a).contribution).reverse key
      · rfl
      · rw [hx] at this; simp at this
    have hstep :
        accFold fs (a :: rest) hs =
          accFold fs rest (((fs a).contribution).foldl (fun acc kv => hinsert acc kv.1 kv.2) hs) := by
      simp [accFold]
    rw [hstep, ih _ (fun d hd => h d (by simp [hd])), alookup_foldl_hinsert, ha]

theorem accFold_append (fs : List String → HeaderFile) (l1 l2 : List (List String))
    (hs : Headers) :
    accFold fs (l1 ++ l2) hs = accFold fs l2 (accFold fs l1 hs) := by
  simp [accFold]

/-- C2: among ancestor directories, the deeper (closer-to-file) declaration of a
header name wins: if directory `dDeep` on the walk declares `key` with value `v` and
no later (deeper) visited directory declares it, the merged request that `find`
interpolates binds `key` to `v` (the file itself not declaring it); and in the
concrete scenario — root headers `A=1, B=2`, subdirectory headers `B=3, C=4`, request
`root/subdir/req` declaring only `D=5` — `find` resolves exactly
`A=1, B=3, C=4, D=5`. -/
theorem c2_deeper_directory_wins (fs : List String → HeaderFile)
    (reqFile : Except KuiperError Request) (p : List String) (r : Request)
    (pre post : List (List String)) (dDeep : List String) (key : List Char)
    (v : Option (List Char)) (hsD : Headers)
    (hw : walkDirs p = pre ++ dDeep :: post)
    (hok : ∀ d ∈ walkDirs p, (fs d).isErr = false)
    (hdeep : fs dDeep = .headerMap hsD)
    (hval : alookup hsD.reverse key = some v)
    (hpost : ∀ d ∈ post, declaresKey (fs d) key = false)
    (hrf : reqFile = .ok r)
    (hfileab : alookup r.headers key = none) :
    (∀ m, mergeStage fs reqFile p = .ok m → alookup m.headers key = some v) ∧
      findModel c2fs (.ok c2req) ["root", "subdir", "req"]
          (fun _ => none) (fun _ => []) (fun _ => []) 0 = .ok (c2resolved, 0) ∧
      alookup c2resolved.headers "A".toList = some (some "1".toList) ∧
      alookup c2resolved.headers "B".toList = some (some "3".toList) ∧
      alookup c2resolved.headers "C".toList = some (some "4".toList) ∧
      alookup c2resolved.headers "D".toList = some (some "5".toList) ∧
      c2resolved.headers.length = 4 := by
  refine ⟨?_, rfl, rfl, rfl, rfl, rfl, rfl⟩
  intro m hm
  subst hrf
  unfold mergeStage at hm
  rw [walkFold, foldlM_overwrite_ok (walkDirs p) fs [] hok] at hm
  cases hm
  rw [alookup_applyDirHeaders_absent _ _ _ hfileab]
  rw [hw, accFold_append]
  have hstep :
      accFold fs [dDeep] (accFold fs pre []) =
        hsD.foldl (fun acc kv => hinsert acc kv.1 kv.2) (accFold fs pre []) := by
    simp [accFold, hdeep, HeaderFile.contribution]
  rw [show dDeep :: post = [dDeep] ++ post from rfl]
  rw [accFold_append, alookup_accFold_undeclared fs post _ key hpost, hstep,
    alookup_foldl_hinsert, hval]

/-- Witness for C2: instantiated at the concrete scenario for header `B`: the
subdirectory (deeper) declares `B=3`, the root declares `B=2`, the file does not
declare `B`; the merged value is `3`. -/
theorem c2_witness :
    (∀ m, mergeStage c2fs (.ok c2req) ["root", "subdir", "req"] = .ok m →
        alookup m.headers "B".toList = some (some "3".toList)) ∧
      findModel c2fs (.ok c2req) ["root", "subdir", "req"]
          (fun _ => none) (fun _ => []) (fun _ => []) 0 = .ok (c2resolved, 0) ∧
      alookup c2resolved.headers "A".toList = some (some "1".toList) ∧
      alookup c2resolved.headers "B".toList = some (some "3".toList) ∧
      alookup c2resolved.headers "C".toList = some (some "4".toList) ∧
      alookup c2resolved.headers "D".toList = some (some "5".toList) ∧
      c2resolved.headers.length = 4 :=
  c2_deeper_directory_wins c2fs (.ok c2req) ["root", "subdir", "req"] c2req
    [["root"]] [] ["root", "subdir"] "B".toList (some "3".toList)
    [("B".toList, some "3".toList), ("C".toList, some "4".toList)]
    rfl (by decide) rfl rfl (by simp) rfl rfl

theorem inits_eq_map_range {α : Type} (l : List α) :
    l.inits = (List.range (l.length + 1)).map l.take := by
  apply List.ext_getElem
  · simp [List.length_inits]
  · intro n h1 h2
    simp [List.getElem_inits]

theorem walkDirs_eq_map_take (p : List String) :
    walkDirs p = (List.range' 1 (p.length - 1)).map p.take := by
  unfold walkDirs ancestors
  rw [inits_eq_map_range, List.range_succ]
  simp [List.reverse_append, List.map_drop]
  rcases Nat.eq_zero_or_pos p.length with h0 | hpos
  · simp [h0]
  · have hlen : p.length = (p.length - 1) + 1 := by omega
    rw [hlen, List.range_succ_eq_map, List.map_cons, List.tail_cons]
    rw [Nat.add_sub_cancel, List.map_map]
    apply List.ext_getElem
    · simp
    · intro i hi1 hi2
      simp [List.getElem_range', List.getElem_range]
      congr 1
      omega

theorem mem_walkDirs_iff (p d : List String) :
    d ∈ walkDirs p ↔ d ≠ [] ∧ d ≠ p ∧ d <+: p := by
  rw [walkDirs_eq_map_take]
  constructor
  · intro hd
    obtain ⟨k, hk, rfl⟩ := List.mem_map.mp hd
    have hk' : 1 ≤ k ∧ k < p.length := by
      have := List.mem_range'_1.mp hk
      omega
    refine ⟨?_, ?_, List.take_prefix k p⟩
    · intro he
      have h0 : min k p.length = (0 : Nat) := by
        simpa [List.length_take] using congrArg List.length he
      omega
    · intro he
      have h0 : min k p.length = p.length := by
        simpa [List.length_take] using congrArg List.length he
      omega
  · rintro ⟨hne, hnp, hpre⟩
    have hlen : d.length ≤ p.length := hpre.length_le
    have hlt : d.length < p.length := by
      rcases Nat.lt_or_ge d.length p.length with h | h
      · exact h
      · exfalso
        apply hnp
        have he : d.length = p.length := by omega
        rw [List.prefix_iff_eq_take.mp hpre, he, List.take_length]
    have hpos : 1 ≤ d.length := by
      have := List.length_pos.mpr hne
      omega
    exact List.mem_map.mpr ⟨d.length, List.mem_range'_1.mpr (by omega),
      (List.prefix_iff_eq_take.mp hpre).symm⟩

theorem foldlM_congr_on (dirs : List (List String)) (fs fs' : List String → HeaderFile)
    (hag : ∀ d ∈ dirs, fs d = fs' d) (hs : Headers) :
    dirs.foldlM (fun acc d => overwriteHeaders (fs d) acc) hs =
      dirs.foldlM (fun acc d => overwriteHeaders (fs' d) acc) hs := by
  induction dirs generalizing hs with
  | nil => rfl
  | cons a rest ih =>
    simp only [List.foldlM_cons]
    rw [hag a (by simp)]
    cases hov : overwriteHeaders (fs' a) hs with
    | error e => rw [except_bind_error, except_bind_error]
    | ok hs' =>
      rw [except_bind_ok, except_bind_ok]
      exact ih (fun d hd => hag d (by simp [hd])) hs'

/-- C3 counterexample: the CLI forms the request path by joining the configured
base directory with the request-relative path (`main.rs`), here base
`/work/requests` and relative path `api/req.kuiper`, giving the canonicalized path
`/work/requests/api/req.kuiper` (modelled as the component list
`["work", "requests", "api", "req.kuiper"]`).  The directory `/work` is not
strictly between the configured base and the file — it lies above the base, so the
claim says it contributes nothing — yet the walk of `Request::find`
(`ancestors().skip(1).rev().skip(1)` on the full path, `lib.rs:40-44`) visits both
`/work` and the configured base itself, and a `headers.json` at `/work` lands in
the resolved request. -/
theorem c3_counterexample :
    (¬ ((["work", "requests"] : List String) <+: ["work"])) ∧
      (["work"] : List String) ∈ walkDirs ["work", "requests", "api", "req.kuiper"] ∧
      (["work", "requests"] : List String) ∈
        walkDirs ["work", "requests", "api", "req.kuiper"] ∧
      findModel
          (fun d => if d = (["work"] : List String) then
            HeaderFile.headerMap [("A".toList, some "1".toList)]
          else HeaderFile.notFound)
          (.ok ⟨"n".toList, "u".toList, [], [], "GET".toList, none⟩)
          ["work", "requests", "api", "req.kuiper"]
          (fun _ => none) (fun _ => []) (fun _ => []) 0 =
        .ok (⟨"n".toList, "u".toList, [("A".toList, some "1".toList)], [],
          "GET".toList, none⟩, 0) :=
  ⟨by decide, by decide, by decide, rfl⟩

/-- **C3** (amended): the directories whose header files are read by the walk of
`Request::find` are exactly the proper non-empty prefixes of the canonicalized
absolute request path — every ancestor strictly between the filesystem root and the
file, inclusive of the file's parent and exclusive of the filesystem root (the
topmost ancestor, modelled as the empty component list) and of the file itself.
Accordingly two filesystems agreeing on those directories give identical
resolutions; and the walk is *not* bounded by the CLI-configured base directory:
whenever the path decomposes as `base ++ rel` (the CLI joins the configured
directory with the request-relative path), the base itself and every non-empty
ancestor of it are visited, so their header files contribute inherited headers. -/
theorem c3_amended (p d : List String) (fs fs' : List String → HeaderFile)
    (reqFile : Except KuiperError Request) (env : List Char → Option (List Char))
    (gen now : Nat → List Char) (c : Nat) :
    (d ∈ walkDirs p ↔ d ≠ [] ∧ d ≠ p ∧ d <+: p) ∧
      ((∀ d', d' ≠ [] → d' ≠ p → d' <+: p → fs d' = fs' d') →
        findModel fs reqFile p env gen now c = findModel fs' reqFile p env gen now c) ∧
      (∀ base rel, p = base ++ rel → rel ≠ [] →
        ∀ d', d' ≠ [] → d' <+: base → d' ∈ walkDirs p) := by
  refine ⟨mem_walkDirs_iff p d, ?_, ?_⟩
  · intro hag
    unfold findModel walkFold
    cases reqFile with
    | error e => rfl
    | ok r =>
      rw [foldlM_congr_on (walkDirs p) fs fs'
        (fun d' hd' => by
          obtain ⟨h1, h2, h3⟩ := (mem_walkDirs_iff p d').mp hd'
          exact hag d' h1 h2 h3) []]
  · rintro base rel rfl hrne d' hdne hdpre
    refine (mem_walkDirs_iff _ d').mpr
      ⟨hdne, ?_, hdpre.trans (List.prefix_append base rel)⟩
    intro he
    have h1 : d'.length ≤ base.length := hdpre.length_le
    have h3 : 0 < rel.length := List.length_pos.mpr hrne
    have h4 : d'.length = base.length + rel.length := by
      rw [he]
      simp
    omega

/-- Witness for C3 at path `/work/requests/api/req.kuiper`: the directory `work` is
on the walk, planting unreadable header files at the filesystem root and at the
file's own path does not change the resolution, and with the path split as the
configured base `["work", "requests"]` plus the relative path
`["api", "req.kuiper"]`, the base and its ancestor `["work"]` are on the walk. -/
theorem c3_witness :
    (((["work"] : List String) ∈ walkDirs ["work", "requests", "api", "req.kuiper"]) ↔
        ((["work"] : List String) ≠ [] ∧
          (["work"] : List String) ≠ ["work", "requests", "api", "req.kuiper"] ∧
          (["work"] : List String) <+: ["work", "requests", "api", "req.kuiper"])) ∧
      ((∀ d', d' ≠ ([] : List String) →
          d' ≠ ["work", "requests", "api", "req.kuiper"] →
          d' <+: ["work", "requests", "api", "req.kuiper"] →
          (fun d => if d = ([] : List String) ∨
              d = ["work", "requests", "api", "req.kuiper"] then
            HeaderFile.ioError else HeaderFile.notFound) d' =
            (fun _ => HeaderFile.notFound) d') →
        findModel
            (fun d => if d = ([] : List String) ∨
                d = ["work", "requests", "api", "req.kuiper"] then
              HeaderFile.ioError else HeaderFile.notFound)
            (.ok ⟨"n".toList, "u".toList, [], [], "GET".toList, none⟩)
            ["work", "requests", "api", "req.kuiper"]
            (fun _ => none) (fun _ => []) (fun _ => []) 0 =
          findModel (fun _ => HeaderFile.notFound)
            (.ok ⟨"n".toList, "u".toList, [], [], "GET".toList, none⟩)
            ["work", "requests", "api", "req.kuiper"]
            (fun _ => none) (fun _ => []) (fun _ => []) 0) ∧
      (∀ base rel, ["work", "requests", "api", "req.kuiper"] = base ++ rel →
        rel ≠ [] → ∀ d', d' ≠ [] → d' <+: base →
          d' ∈ walkDirs ["work", "requests", "api", "req.kuiper"]) :=
  c3_amended ["work", "requests", "api", "req.kuiper"] ["work"] _ _
    (.ok ⟨"n".toList, "u".toList, [], [], "GET".toList, none⟩)
    (fun _ => none) (fun _ => []) (fun _ => []) 0

/-- C4 counterexample: a string with two `\x7b\x7bexpr:uuid\x7d\x7d` placeholders.
The claim predicts two different freshly generated UUIDs, one per occurrence
(result `G0 G1` with the modelled generator); the code's
`result.replace(span, value)` replaces every occurrence of the matched text, so
both spans receive the first generated value: the result is `G0 G0`. -/
theorem c4_counterexample :
    interpolateStr (fun _ => none)
        (fun n => if n = 0 then "G0".toList else "G1".toList) (fun _ => "T".toList)
        "\x7b\x7bexpr:uuid\x7d\x7d \x7b\x7bexpr:uuid\x7d\x7d".toList 0 =
      .ok ("G0 G0".toList, 2) ∧
      "G0 G0".toList ≠ "G0 G1".toList :=
  ⟨rfl, by decide⟩

/-- C4 amended: occurrences are scanned left to right against the original string
and a fresh value is generated per occurrence (the counter ends at 2), but each
replacement substitutes *every* occurrence of the matched placeholder text still
present in the accumulated result; hence both occurrences of an identical
`\x7b\x7bexpr:uuid\x7d\x7d` placeholder resolve to the *first* generated UUID and the
second generated value is discarded, while textually distinct placeholders are each
replaced by their own value. -/
theorem c4_amended :
    interpolateStr (fun _ => none)
        (fun n => if n = 0 then "G0".toList else "G1".toList) (fun _ => "T".toList)
        "\x7b\x7bexpr:uuid\x7d\x7d \x7b\x7bexpr:uuid\x7d\x7d".toList 0 =
      .ok ("G0 G0".toList, 2) ∧
      interpolateStr
        (fun n => if n = "A".toList then some "x".toList
          else if n = "B".toList then some "y".toList else none)
        (fun _ => []) (fun _ => [])
        "\x7b\x7benv:A\x7d\x7d-\x7b\x7benv:B\x7d\x7d".toList 0 =
      .ok ("x-y".toList, 0) :=
  ⟨rfl, rfl⟩

/-- C5 counterexample: a request whose only header value and only param value both
contain failing placeholders.  The claim says headers are interpolated before params,
so the header's error (`MissingEnvVar HH`) should be reported; the code interpolates
params first (`interpolate` calls uri, params, headers, body in that order) and
reports the param's error `MissingEnvVar PP`. -/
theorem c5_counterexample :
    Request.interpolate (fun _ => none) (fun _ => []) (fun _ => [])
        ⟨"n".toList, "u".toList,
          [("H".toList, some "\x7b\x7benv:HH\x7d\x7d".toList)],
          [("P".toList, "\x7b\x7benv:PP\x7d\x7d".toList)], "GET".toList, none⟩ 0 =
      .error (.interpolationError (.missingEnvVar "PP".toList)) ∧
      KuiperError.interpolationError (.missingEnvVar "PP".toList) ≠
        .interpolationError (.missingEnvVar "HH".toList) :=
  ⟨rfl, by decide⟩

theorem interpolateHeadersGo_none_skipped (env : List Char → Option (List Char))
    (gen now : Nat → List Char) :
    ∀ (hs : Headers) (c : Nat) (hs' : Headers) (c' : Nat),
      interpolateHeadersGo env gen now hs c = .ok (hs', c') →
        hs'.length = hs.length ∧
          ∀ (i : Nat) (k : List Char),
            hs[i]? = some (k, (none : Option (List Char))) →
            hs'[i]? = some (k, (none : Option (List Char))) := by
  intro hs
  induction hs with
  | nil =>
    intro c hs' c' h
    simp [interpolateHeadersGo] at h
    obtain ⟨h1, _⟩ := h
    subst h1
    simp
  | cons kv rest ih =>
    intro c hs' c' h
    obtain ⟨k, v⟩ := kv
    cases v with
    | none =>
      rw [interpolateHeadersGo] at h
      split at h
      · cases h
      · rename_i rest' c2 hrec
        cases h
        obtain ⟨hl, hg⟩ := ih _ _ _ hrec
        refine ⟨by simp [hl], ?_⟩
        intro i k' hi
        cases i with
        | zero => simpa using hi
        | succ j =>
          simp only [List.getElem?_cons_succ] at hi ⊢
          exact hg j k' hi
    | some s =>
      rw [interpolateHeadersGo] at h
      split at h
      · cases h
      · rename_i s' c1 hstr
        split at h
        · cases h
        · rename_i rest' c2 hrec
          cases h
          obtain ⟨hl, hg⟩ := ih _ _ _ hrec
          refine ⟨by simp [hl], ?_⟩
          intro i k' hi
          cases i with
          | zero => simp at hi
          | succ j =>
            simp only [List.getElem?_cons_succ] at hi ⊢
            exact hg j k' hi

/-- C5 amended: interpolation is applied in the fixed order URI, then each param
value, then each header value that is present (a `null` header value is skipped and
kept in place), then the body; consequently the error reported when several fields
fail is the one from the field earliest in *that* order. -/
theorem c5_amended (env : List Char → Option (List Char)) (gen now : Nat → List Char)
    (r : Request) (c : Nat) (e : KuiperError) :
    (interpolateStr env gen now r.uri c = .error e →
        r.interpolate env gen now c = .error e) ∧
      (∀ u c1, interpolateStr env gen now r.uri c = .ok (u, c1) →
        interpolateParamsGo env gen now r.params c1 = .error e →
        r.interpolate env gen now c = .error e) ∧
      (∀ u c1 ps c2, interpolateStr env gen now r.uri c = .ok (u, c1) →
        interpolateParamsGo env gen now r.params c1 = .ok (ps, c2) →
        interpolateHeadersGo env gen now r.headers c2 = .error e →
        r.interpolate env gen now c = .error e) ∧
      (∀ hs c3 hs' c4, interpolateHeadersGo env gen now hs c3 = .ok (hs', c4) →
        hs'.length = hs.length ∧
          ∀ (i : Nat) (k : List Char),
            hs[i]? = some (k, (none : Option (List Char))) →
            hs'[i]? = some (k, (none : Option (List Char)))) := by
  refine ⟨?_, ?_, ?_, ?_⟩
  · intro h
    unfold Request.interpolate
    rw [h]
  · intro u c1 h1 h2
    unfold Request.interpolate
    simp only [h1]
    simp only [h2]
  · intro u c1 ps c2 h1 h2 h3
    unfold Request.interpolate
    simp only [h1]
    simp only [h2]
    simp only [h3]
  · intro hs c3 hs' c4 h
    exact interpolateHeadersGo_none_skipped env gen now hs c3 hs' c4 h

/-- Witness for C5 at concrete inputs: a failing URI placeholder aborts the whole
interpolation with the URI's error (field earliest in the order), and a `null`
header value is skipped and preserved. -/
theorem c5_witness :
    Request.interpolate (fun _ => none) (fun _ => []) (fun _ => [])
        ⟨"n".toList, "\x7b\x7benv:U\x7d\x7d".toList,
          [("H".toList, some "\x7b\x7benv:HH\x7d\x7d".toList)], [],
          "GET".toList, none⟩ 0 =
      .error (.interpolationError (.missingEnvVar "U".toList)) ∧
      ([("K".toList, (none : Option (List Char)))].length =
          [("K".toList, (none : Option (List Char)))].length ∧
        ∀ (i : Nat) (k : List Char),
          [("K".toList, (none : Option (List Char)))][i]? =
            some (k, (none : Option (List Char))) →
          [("K".toList, (none : Option (List Char)))][i]? =
            some (k, (none : Option (List Char)))) :=
  ⟨(c5_amended (fun _ => none) (fun _ => []) (fun _ => [])
      ⟨"n".toList, "\x7b\x7benv:U\x7d\x7d".toList,
        [("H".toList, some "\x7b\x7benv:HH\x7d\x7d".toList)], [],
        "GET".toList, none⟩ 0
      (.interpolationError (.missingEnvVar "U".toList))).1 rfl,
    (c5_amended (fun _ => none) (fun _ => []) (fun _ => [])
      ⟨"n".toList, "\x7b\x7benv:U\x7d\x7d".toList, [], [], "GET".toList, none⟩ 0
      (.interpolationError (.missingEnvVar "U".toList))).2.2.2
      [("K".toList, none)] 0 [("K".toList, none)] 0 rfl⟩

theorem matchIndicesGo_close_first (pre suf : List Char) :
    ∀ i, (∀ ch ∈ pre, ch ≠ '\x7d') →
      ∃ t, matchIndicesGo '\x7d' ['\x7d'] (pre ++ '\x7d' :: '\x7d' :: suf) i 0 =
        (i + pre.length) :: t := by
  induction pre with
  | nil =>
    intro i _
    refine ⟨matchIndicesGo '\x7d' ['\x7d'] ('\x7d' :: suf) (i + 1) 1, ?_⟩
    simp [matchIndicesGo, List.isPrefixOf]
  | cons ch rest ih =>
    intro i hpre
    have hc : ch ≠ '\x7d' := hpre ch (by simp)
    obtain ⟨t, ht⟩ := ih (i + 1) (fun x hx => hpre x (by simp [hx]))
    refine ⟨t, ?_⟩
    show matchIndicesGo _ _ (ch :: (rest ++ '\x7d' :: '\x7d' :: suf)) i 0 = _
    rw [matchIndicesGo]
    rw [if_neg]
    · rw [ht]
      congr 1
      simp
      omega
    · simp [List.isPrefixOf]
      intro he
      exact absurd he.symm hc

theorem matchIndicesGo_open_head (rest : List Char) (i : Nat) :
    ∃ t, matchIndicesGo '\x7b' ['\x7b'] ('\x7b' :: '\x7b' :: rest) i 0 = i :: t :=
  ⟨matchIndicesGo '\x7b' ['\x7b'] ('\x7b' :: rest) (i + 1) 1, by
    simp [matchIndicesGo, List.isPrefixOf]⟩

/-- An `\x7b\x7bexpr:NAME\x7d\x7d` placeholder at the head of the scan, with `NAME`
free of close-marker characters and neither `uuid` nor `now`, makes
`interpolate_str` fail immediately with the top-level error `InvalidExpr NAME`. -/
theorem interpolateStrGo_unknown_expr (env : List Char → Option (List Char))
    (gen now : Nat → List Char) (NAME : List Char) (T : List Nat)
    (result : List Char) (c : Nat)
    (h1 : '\x7d' ∉ NAME) (h2 : NAME ≠ "uuid".toList) (h3 : NAME ≠ "now".toList) :
    interpolateStrGo env gen now
      ('\x7b' :: '\x7b' :: 'e' :: 'x' :: 'p' :: 'r' :: ':' :: (NAME ++ ['\x7d', '\x7d']))
      (0 :: T) result c = .error (.invalidExpr NAME) := by
  have hsplit :
      '\x7b' :: '\x7b' :: 'e' :: 'x' :: 'p' :: 'r' :: ':' :: (NAME ++ ['\x7d', '\x7d']) =
        ('\x7b' :: '\x7b' :: 'e' :: 'x' :: 'p' :: 'r' :: ':' :: NAME) ++
          '\x7d' :: '\x7d' :: [] := by simp
  obtain ⟨t2, ht2⟩ := matchIndicesGo_close_first
    ('\x7b' :: '\x7b' :: 'e' :: 'x' :: 'p' :: 'r' :: ':' :: NAME) [] 0
    (by
      intro ch hch
      simp only [List.mem_cons] at hch
      rcases hch with rfl | rfl | rfl | rfl | rfl | rfl | rfl | hm
      · decide
      · decide
      · decide
      · decide
      · decide
      · decide
      · decide
      · exact fun he => h1 (he ▸ hm))
  rw [interpolateStrGo]
  rw [hsplit]
  have hclose : matchIndices closeMarker
      ((('\x7b' :: '\x7b' :: 'e' :: 'x' :: 'p' :: 'r' :: ':' :: NAME) ++
        '\x7d' :: '\x7d' :: []).drop 0) =
      matchIndicesGo '\x7d' ['\x7d']
        (('\x7b' :: '\x7b' :: 'e' :: 'x' :: 'p' :: 'r' :: ':' :: NAME) ++
          '\x7d' :: '\x7d' :: []) 0 0 := rfl
  rw [hclose, ht2]
  have hlen : (0 + ('\x7b' :: '\x7b' :: 'e' :: 'x' :: 'p' :: 'r' :: ':' :: NAME).length) =
      NAME.length + 7 := by simp
  rw [hlen]
  have hname :
      (((('\x7b' :: '\x7b' :: 'e' :: 'x' :: 'p' :: 'r' :: ':' :: NAME) ++
        '\x7d' :: '\x7d' :: []).drop 0).drop 2).take (NAME.length + 7 - 2) =
        'e' :: 'x' :: 'p' :: 'r' :: ':' :: NAME := by
    show (('e' :: 'x' :: 'p' :: 'r' :: ':' :: NAME) ++
        '\x7d' :: '\x7d' :: []).take (NAME.length + 7 - 2) = _
    have h52 : NAME.length + 7 - 2 =
        ('e' :: 'x' :: 'p' :: 'r' :: ':' :: NAME).length := by simp
    rw [h52, List.take_left]
  have hsp : splitOnceColon ('e' :: 'x' :: 'p' :: 'r' :: ':' :: NAME) =
      some (['e', 'x', 'p', 'r'], NAME) := rfl
  have hty1 : (['e', 'x', 'p', 'r'] = "env".toList) = False := by simp
  have hty2 : (['e', 'x', 'p', 'r'] = "expr".toList) = True := by simp
  have h2' : NAME ≠ ['u', 'u', 'i', 'd'] := by simpa using h2
  have h3' : NAME ≠ ['n', 'o', 'w'] := by simpa using h3
  simp only [hname, hsp, hty1, hty2, if_false, if_true, interpolationExpr]
  simp [h2', h3']

/-- C7 counterexample: interpolating `\x7b\x7bexpr:foo\x7d\x7d` does fail with
`InvalidExpr "foo"`, but that error is a top-level `KuiperError` variant, not a
subdivision of `InterpolationError` as the claim states (the code's
`InterpolationError` has only `MissingEnvVar` and `InvalidFormat`). -/
theorem c7_counterexample :
    interpolateStr (fun _ => none) (fun _ => []) (fun _ => [])
        "\x7b\x7bexpr:foo\x7d\x7d".toList 0 =
      .error (.invalidExpr "foo".toList) ∧
      (KuiperError.invalidExpr "foo".toList).isInterpolationVariant = false :=
  ⟨rfl, rfl⟩

/-- C7 amended: for every `NAME` other than `uuid` and `now` (and containing no
close-marker character, so that the placeholder is parsed as written), interpolating
`\x7b\x7bexpr:NAME\x7d\x7d` fails with `KuiperError::InvalidExpr(NAME)` — a variant
of the top-level error enum alongside, not within, `InterpolationError` (whose only
subdivisions are `MissingEnvVar` and `InvalidFormat`). -/
theorem c7_amended (env : List Char → Option (List Char)) (gen now : Nat → List Char)
    (NAME : List Char) (c : Nat)
    (h1 : '\x7d' ∉ NAME) (h2 : NAME ≠ "uuid".toList) (h3 : NAME ≠ "now".toList) :
    interpolateStr env gen now ("\x7b\x7bexpr:".toList ++ NAME ++ "\x7d\x7d".toList) c =
      .error (.invalidExpr NAME) ∧
      interpolationExpr gen now NAME c = .error (.invalidExpr NAME) ∧
      (KuiperError.invalidExpr NAME).isInterpolationVariant = false := by
  refine ⟨?_, ?_, rfl⟩
  · unfold interpolateStr
    have hin : "\x7b\x7bexpr:".toList ++ NAME ++ "\x7d\x7d".toList =
        '\x7b' :: '\x7b' :: 'e' :: 'x' :: 'p' :: 'r' :: ':' ::
          (NAME ++ ['\x7d', '\x7d']) := rfl
    rw [hin]
    obtain ⟨T, hT⟩ := matchIndicesGo_open_head
      ('e' :: 'x' :: 'p' :: 'r' :: ':' :: (NAME ++ ['\x7d', '\x7d'])) 0
    rw [show matchIndices openMarker
        ('\x7b' :: '\x7b' :: 'e' :: 'x' :: 'p' :: 'r' :: ':' ::
          (NAME ++ ['\x7d', '\x7d'])) =
        matchIndicesGo '\x7b' ['\x7b']
          ('\x7b' :: '\x7b' :: 'e' :: 'x' :: 'p' :: 'r' :: ':' ::
            (NAME ++ ['\x7d', '\x7d'])) 0 0 from rfl]
    rw [hT]
    exact interpolateStrGo_unknown_expr env gen now NAME T _ c h1 h2 h3
  · unfold interpolationExpr
    rw [if_neg h2, if_neg h3]

/-- Witness for C7 at `NAME = "foo"`. -/
theorem c7_witness :
    interpolateStr (fun _ => none) (fun _ => [])
        (fun _ => []) ("\x7b\x7bexpr:".toList ++ "foo".toList ++ "\x7d\x7d".toList) 0 =
      .error (.invalidExpr "foo".toList) ∧
      interpolationExpr (fun _ => []) (fun _ => []) "foo".toList 0 =
        .error (.invalidExpr "foo".toList) ∧
      (KuiperError.invalidExpr "foo".toList).isInterpolationVariant = false :=
  c7_amended (fun _ => none) (fun _ => []) (fun _ => []) "foo".toList 0
    (by decide) (by decide) (by decide)

/-- C6: when no request-definition file under the root matches the term, `search`
returns `Ok` of the empty list, not an error; when files match — however many —
`search` resolves and returns all of them in walk order (given that each candidate
resolves), leaving any disambiguation to the caller. -/
theorem c6_search_zero_or_many (resolve : List Char → Except KuiperError Request)
    (root : List Char) (es : List FsEntry) (term : List Char) :
    (searchPaths term [(root, es)] = [] → searchModel resolve root es term = .ok []) ∧
      (∀ f : List Char → Request, (∀ p, resolve p = .ok (f p)) →
        searchModel resolve root es term =
          .ok ((searchPaths term [(root, es)]).map f)) := by
  constructor
  · intro h
    unfold searchModel
    rw [h]
    rfl
  · intro f hf
    unfold searchModel
    generalize searchPaths term [(root, es)] = ps
    induction ps with
    | nil => rfl
    | cons p rest ih =>
      rw [List.mapM_cons, hf p, ih]
      rfl

/-- Witness for C6: a tree whose single request file does not contain the search
term, so there are zero matches and `search` returns `Ok []` rather than an error;
with an always-succeeding resolver the result is, in general, the resolver mapped
over all matching paths. -/
theorem c6_witness :
    (searchPaths "q".toList [("r".toList, [.file "a.kuiper".toList])] = [] →
        searchModel (fun p => .ok ⟨p, "u".toList, [], [], "GET".toList, none⟩)
          "r".toList [.file "a.kuiper".toList] "q".toList = .ok []) ∧
      (∀ f : List Char → Request,
        (∀ p, (fun p => Except.ok (ε := KuiperError)
            (⟨p, "u".toList, [], [], "GET".toList, none⟩ : Request)) p = .ok (f p)) →
        searchModel (fun p => .ok ⟨p, "u".toList, [], [], "GET".toList, none⟩)
            "r".toList [.file "a.kuiper".toList] "q".toList =
          .ok ((searchPaths "q".toList
            [("r".toList, [.file "a.kuiper".toList])]).map f)) :=
  c6_search_zero_or_many
    (fun p => .ok ⟨p, "u".toList, [], [], "GET".toList, none⟩)
    "r".toList [.file "a.kuiper".toList] "q".toList

theorem afterLastSlash_none {n : List Char} (h : n.contains '/' = false) :
    afterLastSlash n = none := by
  induction n with
  | nil => rfl
  | cons c rest ih =>
    rw [List.contains_cons, Bool.or_eq_false_iff] at h
    rw [afterLastSlash, ih h.2]
    have hc : ¬c = '/' := by
      intro he
      subst he
      simpa using h.1
    simp [hc]

theorem afterLastSlash_join (base n : List Char) (h : n.contains '/' = false) :
    afterLastSlash (base ++ '/' :: n) = some n := by
  induction base with
  | nil =>
    rw [List.nil_append, afterLastSlash, afterLastSlash_none h]
    simp
  | cons c rest ih =>
    rw [List.cons_append, afterLastSlash, ih]

theorem lastComponent_pathJoin (base n : List Char) (h : n.contains '/' = false) :
    lastComponent (pathJoin base n) = n := by
  unfold lastComponent pathJoin
  rw [afterLastSlash_join base n h]
  rfl

theorem fileMatchesIn_ext (term base : List Char) (ents : List FsEntry)
    (hg : entsGood ents = true) :
    ∀ p ∈ fileMatchesIn term base ents,
      (extOf (lastComponent p)).getD [] = "kuiper".toList := by
  induction ents with
  | nil => intro p hp; simp [fileMatchesIn] at hp
  | cons e rest ih =>
    cases e with
    | dir n es =>
      intro p hp
      rw [fileMatchesIn] at hp
      rw [entsGood] at hg
      simp at hg
      exact ih hg.2 p hp
    | file n =>
      intro p hp
      rw [entsGood, entryGood] at hg
      simp at hg
      rw [fileMatchesIn] at hp
      split at hp
      · rename_i hcond
        simp at hcond
        rcases List.mem_cons.mp hp with rfl | hp2
        · rw [lastComponent_pathJoin base n (by simpa using hg.1)]
          exact hcond.1
        · exact ih hg.2 p hp2
      · exact ih hg.2 p hp

theorem subdirsOf_good (base : List Char) (ents : List FsEntry)
    (hg : entsGood ents = true) :
    queueGood (subdirsOf base ents) = true := by
  induction ents with
  | nil => rfl
  | cons e rest ih =>
    rw [entsGood] at hg
    simp at hg
    cases e with
    | file n => rw [subdirsOf]; exact ih hg.2
    | dir n es =>
      rw [subdirsOf]
      unfold queueGood
      simp only [List.all_cons]
      refine (Bool.and_eq_true _ _).mpr ⟨?_, ?_⟩
      · rw [entryGood] at hg; exact hg.1
      · exact ih hg.2

theorem searchPaths_ext_aux (term : List Char) :
    ∀ (n : Nat) (q : List (List Char × List FsEntry)),
      2 * queueSize q + q.length ≤ n → queueGood q = true →
      ∀ p ∈ searchPaths term q,
        (extOf (lastComponent p)).getD [] = "kuiper".toList := by
  intro n
  induction n with
  | zero =>
    intro q hb _ p hp
    have hq : q = [] := List.length_eq_zero.mp (by omega)
    subst hq
    simp [searchPaths] at hp
  | succ n ih =>
    intro q hb hg p hp
    match q with
    | [] => simp [searchPaths] at hp
    | (base, ents) :: rest =>
      rw [searchPaths] at hp
      unfold queueGood at hg
      simp only [List.all_cons] at hg
      have hg' := (Bool.and_eq_true _ _).mp hg
      rcases List.mem_append.mp hp with hp1 | hp2
      · exact fileMatchesIn_ext term base ents hg'.1 p hp1
      · have hsz := subdirsOf_size base ents
        have hln := subdirsOf_length base ents
        have happ := queueSize_append rest (subdirsOf base ents)
        refine ih (rest ++ subdirsOf base ents) ?_ ?_ p hp2
        · have hq : queueSize ((base, ents) :: rest) = entsSize ents + queueSize rest := by
            simp [queueSize]
          rcases ents with _ | ⟨e, es⟩
          · simp [subdirsOf, queueSize, entsSize] at *
            omega
          · have hpos : 1 ≤ entsSize (e :: es) := by
              rw [entsSize]
              cases e <;> rw [entrySize] <;> omega
            simp only [List.length_append, List.length_cons] at hb ⊢
            omega
        · unfold queueGood
          rw [List.all_append]
          refine (Bool.and_eq_true _ _).mpr ⟨hg'.2, ?_⟩
          exact subdirsOf_good base ents hg'.1

/-- C10: `search` only ever returns paths whose final component has extension
exactly `kuiper` (a missing extension counts as the empty one); in particular a
file named `match.txt` or `match` is never a candidate even when the term `match`
occurs in its path. -/
theorem c10_only_kuiper_extension (term : List Char)
    (q : List (List Char × List FsEntry)) (hq : queueGood q = true) :
    (∀ p ∈ searchPaths term q,
        (extOf (lastComponent p)).getD [] = "kuiper".toList) ∧
      searchPaths "match".toList
        [("r".toList, [.file "match.txt".toList, .file "match".toList])] = [] := by
  constructor
  · exact searchPaths_ext_aux term (2 * queueSize q + q.length) q (le_refl _) hq
  · rw [searchPaths]
    have h1 : fileMatchesIn "match".toList "r".toList
        [.file "match.txt".toList, .file "match".toList] = [] := rfl
    have h2 : subdirsOf "r".toList
        [.file "match.txt".toList, .file "match".toList] = [] := rfl
    rw [h1, h2]
    simp [searchPaths]

/-- Witness for C10: the empty-queue instance (the concrete negative scenario in the
theorem is itself closed). -/
theorem c10_witness :
    (∀ p ∈ searchPaths "t".toList [("r".toList, [.file "a.kuiper".toList])],
        (extOf (lastComponent p)).getD [] = "kuiper".toList) ∧
      searchPaths "match".toList
        [("r".toList, [.file "match.txt".toList, .file "match".toList])] = [] :=
  c10_only_kuiper_extension "t".toList [("r".toList, [.file "a.kuiper".toList])]
    (by decide)

/-!
### Round trip of the JSON printer and parser
-/

theorem parseStrBody_escape (s rest : List Char) :
    parseStrBody (escapeString s ++ '"' :: rest) = .ok (s, rest) := by
  induction s with
  | nil =>
    show parseStrBody ('"' :: rest) = _
    rw [parseStrBody.eq_def]
    simp
  | cons c cs ih =>
    by_cases h1 : c = '"'
    · subst h1
      show parseStrBody ('\\' :: '"' :: (escapeString cs ++ '"' :: rest)) = _
      have hstep : parseStrBody ('\\' :: '"' :: (escapeString cs ++ '"' :: rest)) =
          match parseStrBody (escapeString cs ++ '"' :: rest) with
          | .error _ => .error ()
          | .ok (s, r) => .ok ('"' :: s, r) := rfl
      rw [hstep, ih]
    · by_cases h2 : c = '\\'
      · subst h2
        show parseStrBody ('\\' :: '\\' :: (escapeString cs ++ '"' :: rest)) = _
        have hstep : parseStrBody ('\\' :: '\\' :: (escapeString cs ++ '"' :: rest)) =
            match parseStrBody (escapeString cs ++ '"' :: rest) with
            | .error _ => .error ()
            | .ok (s, r) => .ok ('\\' :: s, r) := rfl
        rw [hstep, ih]
      · by_cases h3 : c = '\n'
        · subst h3
          show parseStrBody ('\\' :: 'n' :: (escapeString cs ++ '"' :: rest)) = _
          have hstep : parseStrBody ('\\' :: 'n' :: (escapeString cs ++ '"' :: rest)) =
              match parseStrBody (escapeString cs ++ '"' :: rest) with
              | .error _ => .error ()
              | .ok (s, r) => .ok ('\n' :: s, r) := rfl
          rw [hstep, ih]
        · by_cases h4 : c = '\t'
          · subst h4
            show parseStrBody ('\\' :: 't' :: (escapeString cs ++ '"' :: rest)) = _
            have hstep : parseStrBody ('\\' :: 't' :: (escapeString cs ++ '"' :: rest)) =
                match parseStrBody (escapeString cs ++ '"' :: rest) with
                | .error _ => .error ()
                | .ok (s, r) => .ok ('\t' :: s, r) := rfl
            rw [hstep, ih]
          · by_cases h5 : c = '\x0d'
            · subst h5
              show parseStrBody ('\\' :: 'r' :: (escapeString cs ++ '"' :: rest)) = _
              have hstep :
                  parseStrBody ('\\' :: 'r' :: (escapeString cs ++ '"' :: rest)) =
                    match parseStrBody (escapeString cs ++ '"' :: rest) with
                    | .error _ => .error ()
                    | .ok (s, r) => .ok ('\x0d' :: s, r) := rfl
              rw [hstep, ih]
            · have hne : escapeString (c :: cs) = c :: escapeString cs := by
                rw [escapeString]
                simp [h1, h2, h3, h4, h5]
              rw [hne, List.cons_append, parseStrBody.eq_def]
              simp only [if_neg h1, if_neg h2]
              rw [ih]

theorem digitChar_isDigit {m : Nat} (h : m < 10) : (digitChar m).isDigit = true := by
  interval_cases m <;> decide

theorem digitChar_val {m : Nat} (h : m < 10) : (digitChar m).toNat - 48 = m := by
  interval_cases m <;> decide

theorem natDigits_ne_nil (n : Nat) : natDigits n ≠ [] := by
  rw [natDigits]
  split
  · simp
  · simp

theorem natDigits_all_digit (n : Nat) : ∀ c ∈ natDigits n, c.isDigit = true := by
  induction n using Nat.strong_induction_on with
  | _ n ih =>
    rw [natDigits]
    split
    · rename_i h
      intro c hc
      simp at hc
      subst hc
      exact digitChar_isDigit h
    · rename_i h
      intro c hc
      rcases List.mem_append.mp hc with h1 | h2
      · exact ih (n / 10) (Nat.div_lt_self (by omega) (by omega)) c h1
      · simp at h2
        subst h2
        exact digitChar_isDigit (Nat.mod_lt _ (by omega))

theorem foldl_digits_acc (ds : List Char) :
    ∀ a : Nat, ds.foldl (fun x c => x * 10 + (c.toNat - 48)) a =
      a * 10 ^ ds.length + ds.foldl (fun x c => x * 10 + (c.toNat - 48)) 0 := by
  induction ds with
  | nil => intro a; simp
  | cons c cs ih =>
    intro a
    simp only [List.foldl_cons, List.length_cons]
    rw [ih (a * 10 + (c.toNat - 48)), ih (0 * 10 + (c.toNat - 48))]
    ring

theorem digitsVal_append_single (ds : List Char) (c : Char) :
    digitsVal (ds ++ [c]) = digitsVal ds * 10 + (c.toNat - 48) := by
  simp [digitsVal, List.foldl_append]

theorem natDigits_val (n : Nat) : digitsVal (natDigits n) = n := by
  induction n using Nat.strong_induction_on with
  | _ n ih =>
    rw [natDigits]
    split
    · rename_i h
      simp [digitsVal, digitChar_val h]
    · rename_i h
      rw [digitsVal_append_single]
      rw [ih (n / 10) (Nat.div_lt_self (by omega) (by omega))]
      rw [digitChar_val (Nat.mod_lt _ (by omega))]
      omega

theorem parseDigitsGo_spec (ds : List Char) (hds : ∀ c ∈ ds, c.isDigit = true)
    (rest : List Char) (hr : noDigitHead rest = true) :
    ∀ acc, parseDigitsGo acc (ds ++ rest) = (acc * 10 ^ ds.length + digitsVal ds, rest) := by
  induction ds with
  | nil =>
    intro acc
    simp only [List.nil_append, digitsVal, List.foldl_nil, List.length_nil, pow_zero,
      Nat.mul_one, Nat.add_zero]
    cases rest with
    | nil => rfl
    | cons r rrest =>
      rw [noDigitHead] at hr
      rw [parseDigitsGo, if_neg]
      simp at hr
      simp [hr]
  | cons c cs ih =>
    intro acc
    have hc := hds c (by simp)
    rw [List.cons_append, parseDigitsGo, if_pos hc]
    rw [ih (fun x hx => hds x (by simp [hx])) _]
    have hv : digitsVal (c :: cs) =
        (c.toNat - 48) * 10 ^ cs.length +
          cs.foldl (fun x ch => x * 10 + (ch.toNat - 48)) 0 := by
      simp only [digitsVal, List.foldl_cons]
      rw [foldl_digits_acc cs (0 * 10 + (c.toNat - 48))]
      ring_nf
    rw [hv]
    have : cs.foldl (fun x ch => x * 10 + (ch.toNat - 48)) 0 = digitsVal cs := rfl
    rw [this]
    simp only [List.length_cons]
    have harith : (acc * 10 + (c.toNat - 48)) * 10 ^ cs.length + digitsVal cs =
        acc * 10 ^ (cs.length + 1) + ((c.toNat - 48) * 10 ^ cs.length + digitsVal cs) := by
      ring
    rw [harith]

theorem parseValW_ok {s : List Char} {v : JValue} {r : List Char}
    (h : parseValW s = .ok (v, r)) :
    ∃ pf : r.length < s.length, parseVal s = .ok (v, ⟨r, pf⟩) := by
  unfold parseValW at h
  cases hp : parseVal s with
  | error e => rw [hp] at h; cases h
  | ok pr =>
    obtain ⟨v', rr⟩ := pr
    rw [hp] at h
    simp only [Except.ok.injEq, Prod.mk.injEq] at h
    obtain ⟨rfl, hv⟩ := h
    subst hv
    exact ⟨rr.property, rfl⟩

theorem parseArrElemsW_ok {s : List Char} {es : List JValue} {r : List Char}
    (h : parseArrElemsW s = .ok (es, r)) :
    ∃ pf : r.length < s.length, parseArrElems s = .ok (es, ⟨r, pf⟩) := by
  unfold parseArrElemsW at h
  cases hp : parseArrElems s with
  | error e => rw [hp] at h; cases h
  | ok pr =>
    obtain ⟨es', rr⟩ := pr
    rw [hp] at h
    simp only [Except.ok.injEq, Prod.mk.injEq] at h
    obtain ⟨rfl, hv⟩ := h
    subst hv
    exact ⟨rr.property, rfl⟩

theorem parseObjFieldsW_ok {s : List Char} {fs : List (List Char × JValue)}
    {r : List Char} (h : parseObjFieldsW s = .ok (fs, r)) :
    ∃ pf : r.length < s.length, parseObjFields s = .ok (fs, ⟨r, pf⟩) := by
  unfold parseObjFieldsW at h
  cases hp : parseObjFields s with
  | error e => rw [hp] at h; cases h
  | ok pr =>
    obtain ⟨fs', rr⟩ := pr
    rw [hp] at h
    simp only [Except.ok.injEq, Prod.mk.injEq] at h
    obtain ⟨rfl, hv⟩ := h
    subst hv
    exact ⟨rr.property, rfl⟩

theorem isDigit_ne {c : Char} (h : c.isDigit = true) :
    c ≠ 'n' ∧ c ≠ 't' ∧ c ≠ 'f' ∧ c ≠ '"' ∧ c ≠ '[' ∧ c ≠ lbraceChar ∧ c ≠ '-' := by
  refine ⟨?_, ?_, ?_, ?_, ?_, ?_, ?_⟩ <;>
    (intro he; subst he; exact absurd h (by decide))

theorem expectLit_self (lit rest : List Char) : expectLit lit (lit ++ rest) = some rest := by
  induction lit with
  | nil => rfl
  | cons c cs ih =>
    rw [List.cons_append, expectLit, if_pos rfl]
    exact ih

theorem expectLitB_ok {lit s r : List Char} (h : expectLit lit s = some r) :
    expectLitB lit s = some ⟨r, expectLit_length lit s r h⟩ := by
  unfold expectLitB
  split
  · rename_i r' hel
    rw [h] at hel
    cases hel
    rfl
  · rename_i hel
    rw [h] at hel
    cases hel

theorem parseStrBodyB_ok {s out r : List Char} (h : parseStrBody s = .ok (out, r)) :
    parseStrBodyB s = .ok (out, ⟨r, parseStrBody_length h⟩) := by
  unfold parseStrBodyB
  split
  · rename_i e hs
    rw [h] at hs
    cases hs
  · rename_i out' r' hs
    rw [h] at hs
    cases hs
    rfl

theorem parseDigitsB_spec (acc : Nat) (ds : List Char) (hds : ∀ c ∈ ds, c.isDigit = true)
    (rest : List Char) (hr : noDigitHead rest = true) :
    parseDigitsB acc (ds ++ rest) =
      (acc * 10 ^ ds.length + digitsVal ds,
        ⟨rest, by simp only [List.length_append]; omega⟩) := by
  have h := parseDigitsGo_spec ds hds rest hr acc
  unfold parseDigitsB
  refine Prod.ext ?_ (Subtype.ext ?_)
  · show (parseDigitsGo acc (ds ++ rest)).1 = _
    rw [h]
  · show (parseDigitsGo acc (ds ++ rest)).2 = rest
    rw [h]

theorem litRes_lit (v : JValue) (lit rest : List Char) :
    litRes v lit (lit ++ rest) =
      .ok (v, ⟨rest, by simp only [List.length_append]; omega⟩) := by
  unfold litRes
  rw [expectLitB_ok (expectLit_self lit rest)]

theorem strRes_ok {s out r : List Char} (h : parseStrBody s = .ok (out, r)) :
    strRes s = .ok (.str out, ⟨r, Nat.lt_succ_of_lt (parseStrBody_length h)⟩) := by
  unfold strRes
  rw [parseStrBodyB_ok h]

theorem parseValW_printInt (n : Int) (rest : List Char) (hr : noDigitHead rest = true) :
    parseValW (printInt n ++ rest) = .ok (.num n, rest) := by
  by_cases hneg : n < 0
  · rw [printInt, if_pos hneg]
    obtain ⟨d, ds, hds⟩ := List.exists_cons_of_ne_nil (natDigits_ne_nil (-n).toNat)
    have hdig := natDigits_all_digit (-n).toNat
    rw [hds] at hdig
    have hd : d.isDigit = true := hdig d (by simp)
    have hval : (d.toNat - 48) * 10 ^ ds.length + digitsVal ds = (-n).toNat := by
      have h1 : digitsVal (d :: ds) = (-n).toNat := by rw [← hds]; exact natDigits_val _
      rw [digitsVal, List.foldl_cons] at h1
      rw [foldl_digits_acc ds (0 * 10 + (d.toNat - 48))] at h1
      simpa [digitsVal] using h1
    rw [hds]
    unfold parseValW
    rw [List.cons_append, parseVal.eq_2]
    rw [if_neg (by decide : ¬('-' : Char) = 'n'), if_neg (by decide : ¬('-' : Char) = 't'),
      if_neg (by decide : ¬('-' : Char) = 'f'),
      if_neg (by decide : ¬('-' : Char) = '"'),
      if_neg (by decide : ¬('-' : Char) = '['),
      if_neg (by decide : ¬('-' : Char) = lbraceChar), if_pos rfl]
    rw [List.cons_append, parseNegStart, if_pos hd]
    have hspec := parseDigitsB_spec (d.toNat - 48) ds
      (fun x hx => hdig x (by simp [hx])) rest hr
    simp only [hspec, hval]
    simp
    omega
  · rw [printInt, if_neg hneg]
    obtain ⟨d, ds, hds⟩ := List.exists_cons_of_ne_nil (natDigits_ne_nil n.toNat)
    have hdig := natDigits_all_digit n.toNat
    rw [hds] at hdig
    have hd : d.isDigit = true := hdig d (by simp)
    obtain ⟨hn1, hn2, hn3, hn4, hn5, hn6, hn7⟩ := isDigit_ne hd
    have hval : (d.toNat - 48) * 10 ^ ds.length + digitsVal ds = n.toNat := by
      have h1 : digitsVal (d :: ds) = n.toNat := by rw [← hds]; exact natDigits_val _
      rw [digitsVal, List.foldl_cons] at h1
      rw [foldl_digits_acc ds (0 * 10 + (d.toNat - 48))] at h1
      simpa [digitsVal] using h1
    rw [hds]
    unfold parseValW
    rw [List.cons_append, parseVal.eq_2]
    rw [if_neg hn1, if_neg hn2, if_neg hn3, if_neg hn4, if_neg hn5, if_neg hn6,
      if_neg hn7, if_pos hd]
    unfold numRes
    have hspec := parseDigitsB_spec (d.toNat - 48) ds
      (fun x hx => hdig x (by simp [hx])) rest hr
    simp only [hspec, hval]
    simp
    omega

theorem parseValW_null (rest : List Char) :
    parseValW ("null".toList ++ rest) = .ok (.null, rest) := by
  unfold parseValW
  rw [show ("null".toList ++ rest : List Char) = 'n' :: ("ull".toList ++ rest) from rfl]
  rw [parseVal.eq_2, if_pos rfl, litRes_lit]

theorem parseValW_true (rest : List Char) :
    parseValW ("true".toList ++ rest) = .ok (.bool true, rest) := by
  unfold parseValW
  rw [show ("true".toList ++ rest : List Char) = 't' :: ("rue".toList ++ rest) from rfl]
  rw [parseVal.eq_2, if_neg (by decide : ¬('t' : Char) = 'n'), if_pos rfl, litRes_lit]

theorem parseValW_false (rest : List Char) :
    parseValW ("false".toList ++ rest) = .ok (.bool false, rest) := by
  unfold parseValW
  rw [show ("false".toList ++ rest : List Char) = 'f' :: ("alse".toList ++ rest) from rfl]
  rw [parseVal.eq_2, if_neg (by decide : ¬('f' : Char) = 'n'),
    if_neg (by decide : ¬('f' : Char) = 't'), if_pos rfl, litRes_lit]

theorem parseValW_str (s rest : List Char) :
    parseValW (printJson (.str s) ++ rest) = .ok (.str s, rest) := by
  unfold parseValW
  rw [show printJson (.str s) ++ rest = '"' :: (escapeString s ++ '"' :: rest) from by
    rw [printJson]
    simp]
  rw [parseVal.eq_2, if_neg (by decide : ¬('"' : Char) = 'n'),
    if_neg (by decide : ¬('"' : Char) = 't'), if_neg (by decide : ¬('"' : Char) = 'f'),
    if_pos rfl, strRes_ok (parseStrBody_escape s rest)]

theorem printJson_head (v : JValue) :
    ∃ c cs, printJson v = c :: cs ∧ c ≠ ']' ∧ c ≠ rbraceChar := by
  cases v with
  | null => exact ⟨'n', "ull".toList, by rw [printJson]; rfl, by decide, by decide⟩
  | bool b =>
    cases b with
    | false => exact ⟨'f', "alse".toList, by rw [printJson]; rfl, by decide, by decide⟩
    | true => exact ⟨'t', "rue".toList, by rw [printJson]; rfl, by decide, by decide⟩
  | num n =>
    by_cases hneg : n < 0
    · exact ⟨'-', natDigits (-n).toNat, by rw [printJson, printInt, if_pos hneg],
        by decide, by decide⟩
    · obtain ⟨d, ds, hds⟩ := List.exists_cons_of_ne_nil (natDigits_ne_nil n.toNat)
      have hd : d.isDigit = true := by
        have h2 := natDigits_all_digit n.toNat
        rw [hds] at h2
        exact h2 d (by simp)
      refine ⟨d, ds, by rw [printJson, printInt, if_neg hneg, hds], ?_, ?_⟩ <;>
        (intro he; subst he; exact absurd hd (by decide))
  | str s => exact ⟨'"', escapeString s ++ ['"'], by rw [printJson]; rfl, by decide, by decide⟩
  | arr es => exact ⟨'[', printArrBody es ++ [']'], by rw [printJson]; rfl, by decide, by decide⟩
  | obj fs =>
    exact ⟨lbraceChar, printObjBody fs ++ [rbraceChar], by rw [printJson]; rfl,
      by decide, by decide⟩

theorem printArrBody_cons_eq (e : JValue) (es : List JValue) :
    ∃ t, printArrBody (e :: es) = printJson e ++ t := by
  cases es with
  | nil => exact ⟨[], by rw [printArrBody, List.append_nil]⟩
  | cons e2 es' => exact ⟨',' :: printArrBody (e2 :: es'),
      by rw [printArrBody] <;> first | rfl | exact List.cons_ne_nil _ _⟩

theorem printObjBody_cons_eq (k : List Char) (v : JValue)
    (fs : List (List Char × JValue)) :
    ∃ t, printObjBody ((k, v) :: fs) = '"' :: t := by
  cases fs with
  | nil => exact ⟨escapeString k ++ '"' :: ':' :: printJson v, by rw [printObjBody]; rfl⟩
  | cons f2 fs' =>
    exact ⟨escapeString k ++ '"' :: ':' :: printJson v ++ ',' :: printObjBody (f2 :: fs'),
      by rw [printObjBody] <;> first | rfl | exact List.cons_ne_nil _ _⟩

theorem parseArrElemsW_print :
    ∀ (es : List JValue), es ≠ [] →
      (∀ e ∈ es, ∀ rest, noDigitHead rest = true →
        parseValW (printJson e ++ rest) = .ok (e, rest)) →
      ∀ rest, parseArrElemsW (printArrBody es ++ ']' :: rest) = .ok (es, rest) := by
  intro es
  induction es with
  | nil => intro hne; exact absurd rfl hne
  | cons e es' ihl =>
    intro _ ih rest
    cases es' with
    | nil =>
      have hv := ih e (by simp) (']' :: rest) rfl
      obtain ⟨pf, hval⟩ := parseValW_ok hv
      unfold parseArrElemsW
      rw [show printArrBody [e] ++ ']' :: rest = printJson e ++ ']' :: rest from by
        rw [printArrBody]]
      rw [parseArrElems.eq_1]
      simp only [hval]
      rw [parseArrAfterVal.eq_2, if_neg (by decide : ¬(']' : Char) = ','), if_pos rfl]
    | cons e2 es'' =>
      have hv := ih e (by simp) (',' :: (printArrBody (e2 :: es'') ++ ']' :: rest)) rfl
      obtain ⟨pf, hval⟩ := parseValW_ok hv
      have hrec := ihl (List.cons_ne_nil _ _) (fun x hx => ih x (List.mem_cons_of_mem _ hx)) rest
      obtain ⟨pfA, hvalA⟩ := parseArrElemsW_ok hrec
      unfold parseArrElemsW
      rw [show printArrBody (e :: e2 :: es'') ++ ']' :: rest
          = printJson e ++ (',' :: (printArrBody (e2 :: es'') ++ ']' :: rest)) from by
        rw [printArrBody]
        all_goals first
          | exact List.cons_ne_nil _ _
          | simp [List.append_assoc]]
      rw [parseArrElems.eq_1]
      simp only [hval]
      rw [parseArrAfterVal.eq_2, if_pos rfl]
      simp only [hvalA]
      simp [shrinkRem]

theorem parseObjFieldsW_print :
    ∀ (fs : List (List Char × JValue)), fs ≠ [] →
      (∀ kv ∈ fs, ∀ rest, noDigitHead rest = true →
        parseValW (printJson kv.2 ++ rest) = .ok (kv.2, rest)) →
      ∀ rest, parseObjFieldsW (printObjBody fs ++ rbraceChar :: rest) = .ok (fs, rest) := by
  intro fs
  induction fs with
  | nil => intro hne; exact absurd rfl hne
  | cons f fs' ihl =>
    intro _ ih rest
    obtain ⟨k, v⟩ := f
    cases fs' with
    | nil =>
      have hv := ih (k, v) (by simp) (rbraceChar :: rest) rfl
      obtain ⟨pf, hval⟩ := parseValW_ok hv
      unfold parseObjFieldsW
      rw [show printObjBody [(k, v)] ++ rbraceChar :: rest
          = '"' :: (escapeString k ++ '"' :: (':' :: (printJson v ++ rbraceChar :: rest)))
          from by
        rw [printObjBody]
        simp [List.append_assoc]]
      rw [parseObjFields.eq_2, if_pos rfl]
      have hkey := parseStrBodyB_ok
        (parseStrBody_escape k (':' :: (printJson v ++ rbraceChar :: rest)))
      simp only [hkey]
      rw [parseObjAfterKey.eq_2, if_pos rfl]
      simp only [hval]
      rw [parseObjAfterVal.eq_2, if_neg (by decide : ¬rbraceChar = ','), if_pos rfl]
    | cons f2 fs'' =>
      have hv := ih (k, v) (by simp)
        (',' :: (printObjBody (f2 :: fs'') ++ rbraceChar :: rest)) rfl
      obtain ⟨pf, hval⟩ := parseValW_ok hv
      have hrec := ihl (List.cons_ne_nil _ _) (fun x hx => ih x (List.mem_cons_of_mem _ hx)) rest
      obtain ⟨pfO, hvalO⟩ := parseObjFieldsW_ok hrec
      unfold parseObjFieldsW
      rw [show printObjBody ((k, v) :: f2 :: fs'') ++ rbraceChar :: rest
          = '"' :: (escapeString k ++ '"' :: (':' :: (printJson v ++
              ',' :: (printObjBody (f2 :: fs'') ++ rbraceChar :: rest)))) from by
        rw [printObjBody]
        all_goals first
          | exact List.cons_ne_nil _ _
          | simp [List.append_assoc]]
      rw [parseObjFields.eq_2, if_pos rfl]
      have hkey := parseStrBodyB_ok (parseStrBody_escape k
        (':' :: (printJson v ++ ',' :: (printObjBody (f2 :: fs'') ++ rbraceChar :: rest))))
      simp only [hkey]
      rw [parseObjAfterKey.eq_2, if_pos rfl]
      simp only [hval]
      rw [parseObjAfterVal.eq_2, if_pos rfl]
      simp only [hvalO]
      simp [shrinkRem]

theorem parseValW_print (v : JValue) :
    ∀ rest, noDigitHead rest = true → parseValW (printJson v ++ rest) = .ok (v, rest) := by
  induction v using JValue.recurse with
  | hnull =>
    intro rest _
    rw [show printJson .null = "null".toList from by rw [printJson]]
    exact parseValW_null rest
  | hbool b =>
    intro rest _
    cases b with
    | false =>
      rw [show printJson (.bool false) = "false".toList from by rw [printJson]]
      exact parseValW_false rest
    | true =>
      rw [show printJson (.bool true) = "true".toList from by rw [printJson]]
      exact parseValW_true rest
  | hnum n =>
    intro rest h
    rw [show printJson (.num n) = printInt n from by rw [printJson]]
    exact parseValW_printInt n rest h
  | hstr s =>
    intro rest _
    exact parseValW_str s rest
  | harr es ih =>
    intro rest _
    unfold parseValW
    rw [show printJson (.arr es) ++ rest = '[' :: (printArrBody es ++ ']' :: rest) from by
      rw [printJson]
      simp [List.append_assoc]]
    rw [parseVal.eq_2, if_neg (by decide : ¬('[' : Char) = 'n'),
      if_neg (by decide : ¬('[' : Char) = 't'), if_neg (by decide : ¬('[' : Char) = 'f'),
      if_neg (by decide : ¬('[' : Char) = '"'), if_pos rfl]
    cases es with
    | nil =>
      rw [show printArrBody [] ++ ']' :: rest = ']' :: rest from by
        rw [printArrBody, List.nil_append]]
      rw [parseArrStart.eq_2, if_pos rfl]
    | cons e es' =>
      have hrec := parseArrElemsW_print (e :: es') (List.cons_ne_nil _ _) ih rest
      obtain ⟨c, cs, hcs, hc1, _⟩ := printJson_head e
      obtain ⟨t, ht⟩ := printArrBody_cons_eq e es'
      have hshape : printArrBody (e :: es') ++ ']' :: rest
          = c :: (cs ++ (t ++ ']' :: rest)) := by
        rw [ht, hcs]
        simp [List.append_assoc]
      rw [hshape] at hrec
      obtain ⟨pfA, hvalA⟩ := parseArrElemsW_ok hrec
      rw [hshape, parseArrStart.eq_2, if_neg hc1]
      simp only [hvalA]
  | hobj fs ih =>
    intro rest _
    unfold parseValW
    rw [show printJson (.obj fs) ++ rest
        = lbraceChar :: (printObjBody fs ++ rbraceChar :: rest) from by
      rw [printJson]
      simp [List.append_assoc]]
    rw [parseVal.eq_2, if_neg (by decide : ¬lbraceChar = 'n'),
      if_neg (by decide : ¬lbraceChar = 't'), if_neg (by decide : ¬lbraceChar = 'f'),
      if_neg (by decide : ¬lbraceChar = '"'), if_neg (by decide : ¬lbraceChar = '['),
      if_pos rfl]
    cases fs with
    | nil =>
      rw [show printObjBody [] ++ rbraceChar :: rest = rbraceChar :: rest from by
        rw [printObjBody, List.nil_append]]
      rw [parseObjStart.eq_2, if_pos rfl]
    | cons f fs' =>
      have hrec := parseObjFieldsW_print (f :: fs') (List.cons_ne_nil _ _) ih rest
      obtain ⟨k, v⟩ := f
      obtain ⟨t, ht⟩ := printObjBody_cons_eq k v fs'
      have hshape : printObjBody ((k, v) :: fs') ++ rbraceChar :: rest
          = '"' :: (t ++ rbraceChar :: rest) := by
        rw [ht]
        simp [List.append_assoc]
      rw [hshape] at hrec
      obtain ⟨pfO, hvalO⟩ := parseObjFieldsW_ok hrec
      rw [hshape, parseObjStart.eq_2, if_neg (by decide : ¬('"' : Char) = rbraceChar)]
      simp only [hvalO]

theorem parseTop_print (v : JValue) : parseTop (printJson v) = .ok v := by
  have h := parseValW_print v [] rfl
  rw [List.append_nil] at h
  unfold parseTop
  rw [h]

theorem parseOptValue_print (v : JValue) (hv : v ≠ .null) :
    parseOptValue (printJson v) = .ok (some v) := by
  unfold parseOptValue
  rw [parseTop_print v]
  cases v with
  | null => exact absurd rfl hv
  | bool b => rfl
  | num n => rfl
  | str s => rfl
  | arr es => rfl
  | obj fs => rfl

theorem interpolateStr_no_marker (env : List Char → Option (List Char))
    (gen now : Nat → List Char) (s : List Char) (c : Nat)
    (h : matchIndices openMarker s = []) :
    interpolateStr env gen now s c = .ok (s, c) := by
  unfold interpolateStr
  rw [h]
  rfl

/-- **C9.** Round trip of a placeholder-free body: `Request::interpolate_body`
serialises the body with `Value::to_string`, interpolates the text and re-parses it
with `serde_json::from_str::<Option<Value>>`; when the serialised body contains no
occurrence of the open marker, the interpolation pass is the identity and the re-parse
returns the body unchanged (the hypothesis excluding a `Some(Value::Null)` body
reflects that serde's `Option<Value>` representation collapses JSON `null` to an
absent body when a request definition is loaded, so no loaded definition carries
such a body). -/
theorem c9_body_roundtrip (env : List Char → Option (List Char))
    (gen now : Nat → List Char) (body : Option JValue) (c : Nat)
    (hnn : ∀ v, body = some v → v ≠ .null)
    (hnp : ∀ v, body = some v → matchIndices openMarker (printJson v) = []) :
    interpolateBody env gen now body c = .ok (body, c) := by
  cases body with
  | none => rfl
  | some v =>
    unfold interpolateBody
    simp only [interpolateStr_no_marker env gen now (printJson v) c (hnp v rfl),
      parseOptValue_print v (hnn v rfl)]

theorem c9_witness :
    (∀ v, some (JValue.bool true) = some v → v ≠ JValue.null) ∧
      (∀ v, some (JValue.bool true) = some v →
        matchIndices openMarker (printJson v) = []) ∧
      interpolateBody (fun _ => none) (fun _ => []) (fun _ => [])
        (some (JValue.bool true)) 0 = .ok (some (JValue.bool true), 0) :=
  ⟨fun v h => by cases h; exact fun h2 => JValue.noConfusion h2,
    fun v h => by cases h; rfl,
    c9_body_roundtrip (fun _ => none) (fun _ => []) (fun _ => [])
      (some (JValue.bool true)) 0
      (fun v h => by cases h; exact fun h2 => JValue.noConfusion h2)
      (fun v h => by cases h; rfl)⟩
